import Mathlib

/-!
Verification of the repo-doctor patch pipeline (`src/repo_doctor/diff_utils.py`).

Python strings are modelled as `List Char`; the `.py` functions are translated
line by line into executable Lean definitions below, and the claims about them
are proved afterwards.  File-system effects of the fallback engine and of the
top-level `apply_patch` orchestrator are made explicit: the file system is a
map from paths to optional contents, and every externally visible effect
(temp-file write, external tool invocation, fallback invocation, temp-file
deletion, target-file write) is recorded in the result value.
-/

namespace RepoDoctor

/-- ASCII whitespace, as recognised by Python's `str.strip` / `\s` on the
ASCII inputs this pipeline handles. -/
def isPySpace (c : Char) : Bool :=
  c = ' ' || c = '\t' || c = '\n' || c = '\r' || c = '\x0b' || c = '\x0c'

/-- Python `str.lstrip()`. -/
def pyLStrip (s : List Char) : List Char := s.dropWhile isPySpace

/-- Python `str.rstrip()`. -/
def pyRStrip (s : List Char) : List Char := (s.reverse.dropWhile isPySpace).reverse

/-- Python `str.strip()`. -/
def pyStrip (s : List Char) : List Char := pyRStrip (pyLStrip s)

/-- Python `text.split("\n")`. -/
def splitLines : List Char → List (List Char)
  | [] => [[]]
  | c :: cs =>
    if c = '\n' then [] :: splitLines cs
    else
      match splitLines cs with
      | [] => [[c]]
      | l :: ls => (c :: l) :: ls

/-- Python `"\n".join(lines)`. -/
def joinLines : List (List Char) → List Char
  | [] => []
  | [l] => l
  | l :: ls => l ++ '\n' :: joinLines ls

/-- Python `text.replace("\r\n", "\n").replace("\r", "\n")`. -/
def normEol : List Char → List Char
  | [] => []
  | '\r' :: '\n' :: cs => '\n' :: normEol cs
  | '\r' :: cs => '\n' :: normEol cs
  | c :: cs => c :: normEol cs

/-- Python `p.replace("\\", "/")` on one character. -/
def slashOf (c : Char) : Char := if c = '\\' then '/' else c

/-- The path surgery `normalize_unified_diff` performs on the path portion of a
`---` / `+++` header line: strip, replace backslashes, and add the git-style
`a/` / `b/` prefixes when missing (with a leading `./` dropped first). -/
def canonPath (isMinus : Bool) (rest : List Char) : List Char :=
  let p := (pyStrip rest).map slashOf
  if ("a/".toList).isPrefixOf p || ("b/".toList).isPrefixOf p
      || ("/dev/null".toList).isPrefixOf p then p
  else
    (if isMinus then "a/".toList else "b/".toList)
      ++ (if ("./".toList).isPrefixOf p then p.drop 2 else p)

/-- For a line beginning with `--- ` or `+++ `, the header kind (`true` for
`---`) and the normalized path; `none` for every other line.  This is the
`re.match(r"^(---|\+\+\+)\s+(.*)$", line)` step of `normalize_unified_diff`
combined with the path normalization (the regex always matches such lines,
since the fourth character is a space). -/
def headerParse (l : List Char) : Option (Bool × List Char) :=
  if ("--- ".toList).isPrefixOf l then some (true, canonPath true (l.drop 3))
  else if ("+++ ".toList).isPrefixOf l then some (false, canonPath false (l.drop 3))
  else none

/-- Rewrite of a single line by `normalize_unified_diff`: header lines become
`f"{typ} {p}"`, all other lines pass through. -/
def processLine (l : List Char) : List Char :=
  match headerParse l with
  | some (true, p) => "--- ".toList ++ p
  | some (false, p) => "+++ ".toList ++ p
  | none => l

/-- One step of the `a_path` / `b_path` bookkeeping in the normalizer's loop:
the first normalized `---` path and the first normalized `+++` path other than
`/dev/null` are remembered. -/
def stepPaths (ab : Option (List Char) × Option (List Char)) (l : List Char) :
    Option (List Char) × Option (List Char) :=
  match headerParse l with
  | some (true, p) =>
    (if p ≠ "/dev/null".toList ∧ ab.1 = none then some p else ab.1, ab.2)
  | some (false, p) =>
    (ab.1, if p ≠ "/dev/null".toList ∧ ab.2 = none then some p else ab.2)
  | none => ab

/-- The `a_path` / `b_path` pair collected over all lines. -/
def collectPaths (ls : List (List Char)) : Option (List Char) × Option (List Char) :=
  ls.foldl stepPaths (none, none)

/-- The `f"diff --git {a_path} {b_path}"` preamble line. -/
def dgLine (a b : List Char) : List Char :=
  "diff --git ".toList ++ a ++ ' ' :: b

/-- Function `normalize_unified_diff` from `diff_utils.py`: unify line endings, rewrite
`---` / `+++` headers to git-style prefixed forward-slash paths, prepend a
`diff --git` preamble when both paths were found and the text does not already
start with one, and make sure the text ends with a newline. -/
def normalize_unified_diff (d : List Char) : List Char :=
  let ls := splitLines (normEol d)
  let out := ls.map processLine
  let ab := collectPaths ls
  let n := joinLines out
  let n :=
    match ab with
    | (some a, some b) =>
      if a ≠ [] ∧ b ≠ [] ∧ ¬ (("diff --git ".toList).isPrefixOf (pyLStrip n) = true) then
        dgLine a b ++ '\n' :: n
      else n
    | _ => n
  if (['\n']).isSuffixOf n then n else n ++ ['\n']

/-! ## `extract_diff_block`

The Python function searches for `` ```(?:diff|patch)\s*\n([\s\S]*?)``` `` with
`re.search`.  The matcher below reproduces the backtracking semantics: the
leftmost starting position wins; after the ```` ``` ```` fence and the tag, the
`\s*\n` consumes the longest all-whitespace prefix that ends in a newline
(greedy star with backtracking to place the literal `\n`); the lazy group ends
at the first following ```` ``` ````. -/

/-- Pattern `\s*\n` with backtracking: consume the longest all-whitespace prefix ending
in `'\n'`, returning the remainder; `none` if no such prefix exists. -/
def wsNl : List Char → Option (List Char)
  | [] => none
  | c :: cs =>
    if isPySpace c then
      match wsNl cs with
      | some r => some r
      | none => if c = '\n' then some cs else none
    else none

/-- The lazy group `([\s\S]*?)` followed by ```` ``` ````: the characters up to
the first closing fence, or `none` if there is none. -/
def lazyClose : List Char → Option (List Char)
  | [] => none
  | c :: cs =>
    if ("```".toList).isPrefixOf (c :: cs) then some []
    else (lazyClose cs).map (c :: ·)

/-- One alternative of the fence tag: literal tag text, then `\s*\n`, then the
lazy group up to the closing fence. -/
def tryTag (tag : List Char) (s : List Char) : Option (List Char) :=
  if tag.isPrefixOf s then
    match wsNl (s.drop tag.length) with
    | some r => lazyClose r
    | none => none
  else none

/-- Attempt the whole fence pattern at one starting position. -/
def matchFenceAt (s : List Char) : Option (List Char) :=
  if ("```".toList).isPrefixOf s then
    match tryTag ("diff".toList) (s.drop 3) with
    | some g => some g
    | none => tryTag ("patch".toList) (s.drop 3)
  else none

/-- Like `re.search`: try every starting position from the left. -/
def findFence : List Char → Option (List Char)
  | [] => none
  | c :: cs =>
    match matchFenceAt (c :: cs) with
    | some g => some g
    | none => findFence cs

/-- The `while lines and not lines[-1].strip(): lines.pop()` loop. -/
def popTrailingBlank (ls : List (List Char)) : List (List Char) :=
  (ls.reverse.dropWhile (fun l => (pyStrip l).isEmpty)).reverse

/-- Function `extract_diff_block` from `diff_utils.py`: return the first fenced
```` ```diff ```` / ```` ```patch ```` block's interior, right-stripped and with
trailing blank lines popped; with no fence, the stripped whole input. -/
def extract_diff_block (md : List Char) : List Char :=
  match findFence md with
  | some g => joinLines (popTrailingBlank (splitLines (pyRStrip g)))
  | none => pyStrip md

/-! ## The hunk fallback engine (`fallback_apply_by_search_replace`)

The target-file regex is `^\+\+\+\s+([^\n]+)` under `re.M`, the hunk regex is
`^@@.*?@@\s*\n((?:[ \t\+\-].*\n)+)` under `re.M`.  Both are reproduced below
with their backtracking semantics.  The file system is modelled as a map from
paths to optional contents; reading an existing file always succeeds in the
model (the `try/except` around `read_text` / `write_text` guards I/O faults
that have no deterministic embedding), and the written file, if any, is
returned explicitly. -/

/-- Skip past the first `'\n'`; `none` when there is none. -/
def dropLine : List Char → Option (List Char)
  | [] => none
  | c :: cs => if c = '\n' then some cs else dropLine cs

theorem dropLine_length : ∀ {s r : List Char}, dropLine s = some r → r.length < s.length := by
  intro s
  induction s with
  | nil => intro r h; simp [dropLine] at h
  | cons c cs ih =>
    intro r h
    rw [dropLine] at h
    by_cases hc : c = '\n'
    · rw [if_pos hc] at h
      cases h
      simp
    · rw [if_neg hc] at h
      have := ih h
      simp only [List.length_cons]
      omega

/-- Pattern `\s+([^\n]+)` with backtracking, for the `+++` header search: the group is
the longest run of non-newline characters after the whitespace run chosen for
`\s+`, preferring the longest possible `\s+`. -/
def wsPlus : List Char → Option (List Char)
  | [] => none
  | c :: cs =>
    if isPySpace c then
      match wsPlus cs with
      | some g => some g
      | none =>
        let g := cs.takeWhile (fun x => x ≠ '\n')
        if g.isEmpty then none else some g
    else none

/-- The search `re.search(r'^\+\+\+\s+([^\n]+)', text, flags=re.M)`: scan line starts from
the top, and at each try `\+\+\+` followed by `wsPlus`. -/
def findPlus (s : List Char) : Option (List Char) :=
  match (if ("+++".toList).isPrefixOf s then wsPlus (s.drop 3) else none) with
  | some g => some g
  | none =>
    match h : dropLine s with
    | some r => findPlus r
    | none => none
termination_by s.length
decreasing_by exact dropLine_length h

/-- Path cleanup applied to the matched `+++` group: strip, backslashes to
slashes, drop one leading `b/` or `a/`, drop a leading `./`. -/
def resolveTarget (g : List Char) : List Char :=
  let bp := (pyStrip g).map slashOf
  let bp := if ("b/".toList).isPrefixOf bp || ("a/".toList).isPrefixOf bp
            then bp.drop 2 else bp
  if ("./".toList).isPrefixOf bp then bp.drop 2 else bp

/-- The characters that may open a hunk-body line: `[ \t\+\-]`. -/
def isMarker (c : Char) : Bool := c = ' ' || c = '\t' || c = '+' || c = '-'

/-- Pattern `(?:[ \t\+\-].*\n)+`, greedy: parse one or more marker-opened,
newline-terminated lines, returning them without their terminating newlines
(exactly the `group('body').rstrip("\n").split("\n")` list) and the rest.
The first character of a nonempty `dropWhile (· ≠ '\n')` result is necessarily
`'\n'`, so testing emptiness is the literal `.*\n` check. -/
def bodyLines : List Char → Option (List (List Char) × List Char)
  | [] => none
  | c :: cs =>
    if isMarker c then
      let content := cs.takeWhile (fun x => x ≠ '\n')
      let rest0 := cs.dropWhile (fun x => x ≠ '\n')
      if rest0.isEmpty then none
      else
        match bodyLines rest0.tail with
        | some (ls, r) => some ((c :: content) :: ls, r)
        | none => some ([c :: content], rest0.tail)
    else none
termination_by s => s.length
decreasing_by
  have h1 : (cs.dropWhile (fun x => x ≠ '\n')).length ≤ cs.length :=
    (List.dropWhile_sublist (fun x => x ≠ '\n')).length_le
  have h2 : (cs.dropWhile (fun x => x ≠ '\n')).tail.length ≤
      (cs.dropWhile (fun x => x ≠ '\n')).length := (List.tail_sublist _).length_le
  simp only [List.length_cons]
  omega

theorem bodyLines_length_aux : ∀ (n : Nat) (s : List Char), s.length ≤ n →
    ∀ b r, bodyLines s = some (b, r) → r.length < s.length := by
  intro n
  induction n with
  | zero =>
    intro s hs b r h
    match s, hs with
    | [], _ => simp [bodyLines] at h
  | succ n ih =>
    intro s hs b r h
    match s with
    | [] => simp [bodyLines] at h
    | c :: cs =>
      rw [bodyLines] at h
      by_cases hm : isMarker c
      · rw [if_pos hm] at h
        by_cases he : (cs.dropWhile (fun x => x ≠ '\n')).isEmpty
        · rw [if_pos he] at h; exact absurd h (by simp)
        · rw [if_neg he] at h
          have htl : (cs.dropWhile (fun x => x ≠ '\n')).tail.length < cs.length + 1 := by
            have h1 : (cs.dropWhile (fun x => x ≠ '\n')).length ≤ cs.length :=
              (List.dropWhile_sublist (fun x => x ≠ '\n')).length_le
            have h2 : (cs.dropWhile (fun x => x ≠ '\n')).tail.length ≤
                (cs.dropWhile (fun x => x ≠ '\n')).length := (List.tail_sublist _).length_le
            omega
          cases hb : bodyLines (cs.dropWhile (fun x => x ≠ '\n')).tail with
          | some p =>
            rw [hb] at h
            match p, hb with
            | (ls, r0), hb =>
              have hlt := ih _ (by simp only [List.length_cons] at hs; omega) ls r0 hb
              cases h
              simp only [List.length_cons]
              omega
          | none =>
            rw [hb] at h
            cases h
            simp only [List.length_cons]
            omega
      · rw [if_neg hm] at h; exact absurd h (by simp)

theorem bodyLines_length {s : List Char} {b r} (h : bodyLines s = some (b, r)) :
    r.length < s.length :=
  bodyLines_length_aux s.length s le_rfl b r h

/-- Pattern `\s*\n` directly followed by the hunk body, with backtracking: the greedy
`\s*` prefers the longest all-whitespace prefix whose next character is the
literal `'\n'`, falling back to shorter ones until the body parses. -/
def wsNlBody : List Char → Option (List (List Char) × List Char)
  | [] => none
  | c :: cs =>
    if isPySpace c then
      match wsNlBody cs with
      | some r => some r
      | none => if c = '\n' then bodyLines cs else none
    else none

theorem wsNlBody_length : ∀ {s : List Char} {b r}, wsNlBody s = some (b, r) →
    r.length < s.length := by
  intro s
  induction s with
  | nil => intro b r h; simp [wsNlBody] at h
  | cons c cs ih =>
    intro b r h
    rw [wsNlBody] at h
    by_cases hs : isPySpace c
    · rw [if_pos hs] at h
      cases hr : wsNlBody cs with
      | some p =>
        rw [hr] at h
        cases h
        have := ih hr
        simp only [List.length_cons]
        omega
      | none =>
        rw [hr] at h
        by_cases hc : c = '\n'
        · rw [if_pos hc] at h
          have := bodyLines_length h
          simp only [List.length_cons]
          omega
        · rw [if_neg hc] at h; exact absurd h (by simp)
    · rw [if_neg hs] at h; exact absurd h (by simp)

/-- The lazy `.*?` between the two `@@` of a hunk header: advance within the
line until a position where `@@\s*\n(body)` matches. -/
def findCloseAt : List Char → Option (List (List Char) × List Char)
  | [] => none
  | c :: cs =>
    if ("@@".toList).isPrefixOf (c :: cs) then
      match wsNlBody ((c :: cs).drop 2) with
      | some r => some r
      | none => if c = '\n' then none else findCloseAt cs
    else if c = '\n' then none else findCloseAt cs

theorem findCloseAt_length : ∀ {s : List Char} {b r}, findCloseAt s = some (b, r) →
    r.length < s.length := by
  intro s
  induction s with
  | nil => intro b r h; simp [findCloseAt] at h
  | cons c cs ih =>
    intro b r h
    rw [findCloseAt] at h
    by_cases hp : ("@@".toList).isPrefixOf (c :: cs)
    · rw [if_pos hp] at h
      cases hw : wsNlBody ((c :: cs).drop 2) with
      | some p =>
        rw [hw] at h
        cases h
        have := wsNlBody_length hw
        have hd : ((c :: cs).drop 2).length ≤ (c :: cs).length := by
          rw [List.length_drop]; omega
        omega
      | none =>
        rw [hw] at h
        by_cases hc : c = '\n'
        · rw [if_pos hc] at h; exact absurd h (by simp)
        · rw [if_neg hc] at h
          have := ih h
          simp only [List.length_cons]
          omega
    · rw [if_neg hp] at h
      by_cases hc : c = '\n'
      · rw [if_pos hc] at h; exact absurd h (by simp)
      · rw [if_neg hc] at h
        have := ih h
        simp only [List.length_cons]
        omega

/-- The scan `re.finditer(r'^@@.*?@@\s*\n((?:[ \t\+\-].*\n)+)', text, flags=re.M)`,
collecting the `body` groups: non-overlapping matches, scanned line start by
line start (a match always ends right after a newline, so the position after a
match is again a line start). -/
def findHunks (s : List Char) : List (List (List Char)) :=
  match hm : (if ("@@".toList).isPrefixOf s then findCloseAt (s.drop 2) else none) with
  | some (b, r) => b :: findHunks r
  | none =>
    match hd : dropLine s with
    | some r => findHunks r
    | none => []
termination_by s.length
decreasing_by
  · split at hm
    · have h1 := findCloseAt_length hm
      have h2 : (s.drop 2).length ≤ s.length := by rw [List.length_drop]; omega
      omega
    · exact absurd hm (by simp)
  · exact dropLine_length hd

/-- Python `line.startswith(" ") or line.startswith("\t")`. -/
def isCtx (l : List Char) : Bool :=
  ((" ".toList).isPrefixOf l) || (("\t".toList).isPrefixOf l)

/-- Python `line.startswith("-") and not line.startswith("---")`. -/
def isRem (l : List Char) : Bool :=
  (("-".toList).isPrefixOf l) && !(("---".toList).isPrefixOf l)

/-- Python `line.startswith("+") and not line.startswith("+++")`. -/
def isAdd (l : List Char) : Bool :=
  (("+".toList).isPrefixOf l) && !(("+++".toList).isPrefixOf l)

/-- The `pattern_lines` list: context and removal texts, markers stripped, in order. -/
def patternLines (body : List (List Char)) : List (List Char) :=
  body.filterMap fun l =>
    if isCtx l then some (l.drop 1)
    else if isRem l then some (l.drop 1)
    else none

/-- The `replacement_lines` list: context and addition texts, markers stripped. -/
def replacementLines (body : List (List Char)) : List (List Char) :=
  body.filterMap fun l =>
    if isCtx l then some (l.drop 1)
    else if isAdd l then some (l.drop 1)
    else none

/-- The `removed` list: the removal texts alone. -/
def removedLines (body : List (List Char)) : List (List Char) :=
  body.filterMap fun l => if isRem l then some (l.drop 1) else none

/-- The `added` list: the addition texts alone. -/
def addedLines (body : List (List Char)) : List (List Char) :=
  body.filterMap fun l => if isAdd l then some (l.drop 1) else none

/-- Index of the first occurrence of `pat` in `s` (`str.find`); the empty
pattern occurs at index 0, as in Python. -/
def firstOcc (pat : List Char) : List Char → Option Nat
  | [] => if pat.isPrefixOf ([] : List Char) then some 0 else none
  | c :: cs =>
    if pat.isPrefixOf (c :: cs) then some 0
    else (firstOcc pat cs).map (· + 1)

/-- Python `pat in s`. -/
def isSubstr (pat s : List Char) : Bool := (firstOcc pat s).isSome

/-- Python `s.replace(pat, rep, 1)` when `pat` occurs (otherwise `s`). -/
def replaceFirst (s pat rep : List Char) : List Char :=
  match firstOcc pat s with
  | none => s
  | some i => s.take i ++ rep ++ s.drop (i + pat.length)

/-- One iteration of the hunk loop: the primary context+removal pattern first,
then the removal-only block, then the first removed line alone.  Returns the
updated content when the hunk applied, `none` when it mismatched. -/
def tryHunk (body : List (List Char)) (content : List Char) : Option (List Char) :=
  let pat := joinLines (patternLines body)
  let rep := joinLines (replacementLines body)
  if pat ≠ [] ∧ isSubstr pat content then some (replaceFirst content pat rep)
  else
    match removedLines body with
    | [] => none
    | r0 :: _ =>
      let remB := joinLines (removedLines body)
      let addB := joinLines (addedLines body)
      if remB ≠ [] ∧ isSubstr remB content then some (replaceFirst content remB addB)
      else if isSubstr r0 content then some (replaceFirst content r0 addB)
      else none

/-- The whole hunk loop: apply the hunks in order, threading the in-memory
content and counting applied hunks; `none` as soon as one hunk mismatches. -/
def applyHunks : List (List (List Char)) → List Char → Option (List Char × Nat)
  | [], c => some (c, 0)
  | b :: bs, c =>
    match tryHunk b c with
    | none => none
    | some c' =>
      match applyHunks bs c' with
      | none => none
      | some (c'', n) => some (c'', n + 1)

/-- Result of the fallback engine: the `(bool, message)` pair the Python
function returns, plus the explicit file-system effect — `written = some
(path, content)` exactly when `p.write_text` ran. -/
structure FbResult where
  ok : Bool
  msg : List Char
  written : Option (List Char × List Char)
deriving Repr, DecidableEq

/-- Function `fallback_apply_by_search_replace` from `diff_utils.py`, with the file
system passed in as a map from paths to optional contents. -/
def fallback_apply_by_search_replace (diff : List Char)
    (fs : List Char → Option (List Char)) : FbResult :=
  let text := normEol diff
  match findPlus text with
  | none => ⟨false, "Fallback: no +++ header found".toList, none⟩
  | some g =>
    let bp := resolveTarget g
    match fs bp with
    | none => ⟨false, "Fallback: target file not found: ".toList ++ bp, none⟩
    | some content =>
      match applyHunks (findHunks text) content with
      | none => ⟨false, "Fallback: unable to match hunk to file content".toList, none⟩
      | some (c, n) =>
        if n > 0 then
          ⟨true, "Fallback applied ".toList ++ (Nat.repr n).toList ++ " hunk(s)".toList,
            some (bp, c)⟩
        else ⟨false, "Fallback: no changes applied".toList, some (bp, c)⟩

/-! ## `apply_patch`

The orchestrator writes a temp file, tries five `git apply` modes in order,
then falls back.  External-process exit codes are a parameter (`toolExit i =
true` means mode `i` exited 0), the temp-file name and the last tool's
diagnostic text are opaque parameters, and every effect is recorded in order:
temp-file write, each tool invocation, fallback invocation, temp-file
deletion (the `finally` block). -/

inductive Effect where
  | tempWrite (content : List Char)
  | toolRun (mode : Nat)
  | fallbackRun
  | tempDelete
deriving Repr, DecidableEq

/-- Python `' '.join(cmd[1:])` without the trailing temp path, per mode. -/
def modeName (i : Nat) : List Char :=
  match i with
  | 0 => "apply --whitespace=fix".toList
  | 1 => "apply --ignore-whitespace".toList
  | 2 => "apply -p0".toList
  | 3 => "apply -p1".toList
  | _ => "apply --reject".toList

/-- Success message of mode `i`: `f"Patch applied successfully ({' '.join(cmd[1:])})"`. -/
def modeMsg (i : Nat) (patchPath : List Char) : List Char :=
  "Patch applied successfully (".toList ++ modeName i ++ ' ' :: patchPath ++ ")".toList

/-- Result of `apply_patch`: `(bool, message)` plus the ordered effect trace
and the fallback's file write, if any. -/
structure ApResult where
  ok : Bool
  msg : List Char
  effects : List Effect
  written : Option (List Char × List Char)
deriving Repr, DecidableEq

/-- Function `apply_patch` from `diff_utils.py`.  `patchPath` is the temp-file name the
OS hands back, `toolExit i` tells whether `git apply` mode `i` exits 0, and
`diag` is the `result.stderr or result.stdout` text of the last (fifth) mode,
used only in the final failure message. -/
def apply_patch (diff : List Char) (patchPath : List Char) (toolExit : Nat → Bool)
    (diag : List Char) (fs : List Char → Option (List Char)) : ApResult :=
  let d0 := pyStrip diff
  if d0.isEmpty then ⟨false, "Empty diff content".toList, [], none⟩
  else
    let d := normalize_unified_diff d0
    if toolExit 0 then
      ⟨true, modeMsg 0 patchPath, [.tempWrite d, .toolRun 0, .tempDelete], none⟩
    else if toolExit 1 then
      ⟨true, modeMsg 1 patchPath, [.tempWrite d, .toolRun 0, .toolRun 1, .tempDelete], none⟩
    else if toolExit 2 then
      ⟨true, modeMsg 2 patchPath,
        [.tempWrite d, .toolRun 0, .toolRun 1, .toolRun 2, .tempDelete], none⟩
    else if toolExit 3 then
      ⟨true, modeMsg 3 patchPath,
        [.tempWrite d, .toolRun 0, .toolRun 1, .toolRun 2, .toolRun 3, .tempDelete], none⟩
    else if toolExit 4 then
      ⟨true, modeMsg 4 patchPath,
        [.tempWrite d, .toolRun 0, .toolRun 1, .toolRun 2, .toolRun 3, .toolRun 4,
          .tempDelete], none⟩
    else
      let fb := fallback_apply_by_search_replace d fs
      let effs := [Effect.tempWrite d, .toolRun 0, .toolRun 1, .toolRun 2, .toolRun 3,
        .toolRun 4, .fallbackRun, .tempDelete]
      if fb.ok then
        ⟨true, "Patch applied via fallback: ".toList ++ fb.msg, effs, fb.written⟩
      else
        ⟨false, "git apply failed: ".toList ++ diag ++ "; ".toList ++ fb.msg, effs,
          fb.written⟩

/-! ## Rendered hunks, for stating parser correctness

A well-formed textual hunk is an `@@ ... @@` header line followed by
marker-opened body lines.  `renderHunk` produces exactly that text; the
claim-C2 theorem shows `findHunks` recovers every body, in order. -/

/-- An abstract hunk: the text between the two `@@` of the header line, and
the body lines (each with its leading marker, without the newline). -/
structure Hunk where
  mid : List Char
  body : List (List Char)
deriving Repr, DecidableEq

/-- Newline-terminate each line and concatenate. -/
def renderLines : List (List Char) → List Char
  | [] => []
  | l :: ls => l ++ '\n' :: renderLines ls

/-- The text of one hunk: `@@<mid>@@\n<body lines>`. -/
def renderHunk (h : Hunk) : List Char :=
  ("@@").toList ++ h.mid ++ ("@@").toList ++ '\n' :: renderLines h.body

/-- The text of a sequence of hunks, back to back. -/
def renderHunks : List Hunk → List Char
  | [] => []
  | h :: hs => renderHunk h ++ renderHunks hs

/-- Well-formedness of an abstract hunk, matching what the hunk regex can
recognise without interference: no `@` or newline inside the header middle
(else the lazy `.*?@@` could close early), a nonempty body of marker-opened
newline-free lines, and a first body line containing some non-whitespace
character (else the `\s*\n` after the header would swallow it). -/
def wfHunk (h : Hunk) : Bool :=
  h.mid.all (fun c => c ≠ '@' && c ≠ '\n') &&
  !h.body.isEmpty &&
  h.body.all (fun l => !l.isEmpty && isMarker (l.headD ' ') && l.all (fun c => c ≠ '\n')) &&
  (h.body.headD []).any (fun c => !isPySpace c)

/-- A line list usable before the first hunk: no line starts with `@@`, no
line contains a newline. -/
def wfPre (pre : List (List Char)) : Bool :=
  pre.all (fun l => !(("@@").toList.isPrefixOf l) && l.all (fun c => c ≠ '\n'))

/-! ## Infrastructure lemmas on lines, splitting and joining -/

/-- Bridge between the boolean and propositional forms of list-prefix. -/
theorem isPrefixOf_true_iff {p l : List Char} : p.isPrefixOf l = true ↔ p <+: l :=
  List.isPrefixOf_iff_prefix

theorem splitLines_ne_nil (s : List Char) : splitLines s ≠ [] := by
  cases s with
  | nil => simp [splitLines]
  | cons c cs =>
    rw [splitLines]
    by_cases hc : c = '\n'
    · simp [hc]
    · rw [if_neg hc]
      cases splitLines cs <;> simp

theorem noNL_splitLines {s : List Char} : ∀ l ∈ splitLines s, '\n' ∉ l := by
  induction s with
  | nil => intro l hl; simp [splitLines] at hl; simp [hl]
  | cons c cs ih =>
    intro l hl
    rw [splitLines] at hl
    by_cases hc : c = '\n'
    · rw [if_pos hc] at hl
      rw [List.mem_cons] at hl
      rcases hl with hl | hl
      · simp [hl]
      · exact ih l hl
    · rw [if_neg hc] at hl
      cases hsp : splitLines cs with
      | nil => exact absurd hsp (splitLines_ne_nil cs)
      | cons l0 ls =>
        rw [hsp, List.mem_cons] at hl
        rcases hl with hl | hl
        · subst hl
          intro hmem
          rw [List.mem_cons] at hmem
          rcases hmem with hmem | hmem
          · exact hc hmem.symm
          · exact ih l0 (by rw [hsp]; exact List.mem_cons_self _ _) hmem
        · exact ih l (by rw [hsp]; exact List.mem_cons_of_mem _ hl)

theorem splitLines_of_noNL {s : List Char} (h : '\n' ∉ s) : splitLines s = [s] := by
  induction s with
  | nil => simp [splitLines]
  | cons c cs ih =>
    rw [splitLines]
    have hc : c ≠ '\n' := fun hc => h (by simp [hc])
    rw [if_neg hc]
    rw [ih (fun hm => h (List.mem_cons_of_mem _ hm))]

theorem splitLines_append (a b : List Char) :
    splitLines (a ++ '\n' :: b) = splitLines a ++ splitLines b := by
  induction a with
  | nil => simp [splitLines]
  | cons c a' ih =>
    by_cases hc : c = '\n'
    · show splitLines (c :: (a' ++ '\n' :: b)) = splitLines (c :: a') ++ splitLines b
      rw [splitLines, if_pos hc, ih, splitLines, if_pos hc]
      simp
    · show splitLines (c :: (a' ++ '\n' :: b)) = splitLines (c :: a') ++ splitLines b
      rw [splitLines, if_neg hc, ih, splitLines, if_neg hc]
      cases hsp : splitLines a' with
      | nil => exact absurd hsp (splitLines_ne_nil a')
      | cons l0 ls => simp

theorem joinLines_cons (l : List Char) (ls : List (List Char)) (h : ls ≠ []) :
    joinLines (l :: ls) = l ++ '\n' :: joinLines ls := by
  cases ls with
  | nil => exact absurd rfl h
  | cons l' ls' => rfl

theorem join_split (s : List Char) : joinLines (splitLines s) = s := by
  induction s with
  | nil => simp [splitLines, joinLines]
  | cons c cs ih =>
    rw [splitLines]
    by_cases hc : c = '\n'
    · rw [if_pos hc, joinLines_cons _ _ (splitLines_ne_nil cs), ih, hc]
      simp
    · rw [if_neg hc]
      cases hsp : splitLines cs with
      | nil => exact absurd hsp (splitLines_ne_nil cs)
      | cons l0 ls =>
        rw [hsp] at ih
        cases ls with
        | nil =>
          rw [joinLines] at ih ⊢
          rw [ih]
        | cons l1 ls' =>
          rw [joinLines_cons _ _ (by simp)]
          rw [joinLines_cons _ _ (by simp)] at ih
          rw [List.cons_append, ih]

theorem split_join (L : List (List Char)) (hne : L ≠ [])
    (h : ∀ l ∈ L, '\n' ∉ l) : splitLines (joinLines L) = L := by
  induction L with
  | nil => exact absurd rfl hne
  | cons l ls ih =>
    cases ls with
    | nil =>
      rw [joinLines, splitLines_of_noNL (h l (List.mem_cons_self _ _))]
    | cons l1 ls' =>
      rw [joinLines_cons _ _ (by simp), splitLines_append,
        splitLines_of_noNL (h l (List.mem_cons_self _ _)),
        ih (by simp) (fun x hx => h x (List.mem_cons_of_mem _ hx))]
      simp

theorem normEol_cr_nl (cs : List Char) : normEol ('\r' :: '\n' :: cs) = '\n' :: normEol cs :=
  rfl

theorem normEol_cons_other {c : Char} (cs : List Char) (h : c ≠ '\r') :
    normEol (c :: cs) = c :: normEol cs := by
  rw [normEol.eq_def]
  split
  · rename_i heq; exact absurd heq (by simp)
  · rename_i heq; rw [List.cons.injEq] at heq; exact absurd heq.1 h
  · rename_i heq; rw [List.cons.injEq] at heq; exact absurd heq.1 h
  · rename_i heq; rw [List.cons.injEq] at heq; rw [heq.1, heq.2]

theorem normEol_cons_cr (cs : List Char) (h : cs.head? ≠ some '\n') :
    normEol ('\r' :: cs) = '\n' :: normEol cs := by
  rw [normEol.eq_def]
  split
  · rename_i heq; exact absurd heq (by simp)
  · rename_i heq; rw [List.cons.injEq] at heq
    rw [heq.2] at h; simp at h
  · rename_i heq; rw [List.cons.injEq] at heq; rw [heq.2]
  · rename_i hg heq; rw [List.cons.injEq] at heq
    exact absurd heq.1.symm hg

theorem noCR_normEol (s : List Char) : '\r' ∉ normEol s := by
  induction s using normEol.induct with
  | case1 => simp [normEol]
  | case2 cs ih =>
    rw [normEol_cr_nl]
    simp only [List.mem_cons]
    rintro (h | h)
    · exact absurd h (by decide)
    · exact ih h
  | case3 cs hg ih =>
    rw [normEol_cons_cr cs (by
      cases cs with
      | nil => simp
      | cons d cs' =>
        simp only [List.head?_cons]
        intro hd
        injection hd with hd'
        exact hg cs' (by rw [hd']))]
    simp only [List.mem_cons]
    rintro (h | h)
    · exact absurd h (by decide)
    · exact ih h
  | case4 c cs hg1 hg2 ih =>
    rw [normEol_cons_other cs (fun hc => hg2 hc)]
    simp only [List.mem_cons]
    rintro (h | h)
    · exact hg2 (h ▸ rfl)
    · exact ih h

theorem normEol_eq_self {s : List Char} (h : '\r' ∉ s) : normEol s = s := by
  induction s with
  | nil => rfl
  | cons c cs ih =>
    have hc : c ≠ '\r' := fun hc => h (by simp [hc])
    rw [normEol_cons_other cs hc, ih (fun hm => h (List.mem_cons_of_mem _ hm))]

theorem normEol_append {a : List Char} (b : List Char) (h : '\r' ∉ a) :
    normEol (a ++ b) = a ++ normEol b := by
  induction a with
  | nil => rfl
  | cons c a' ih =>
    have hc : c ≠ '\r' := fun hc => h (by simp [hc])
    rw [List.cons_append, normEol_cons_other _ hc,
      ih (fun hm => h (List.mem_cons_of_mem _ hm)), List.cons_append]

/-! ## Lemmas about the hunk-line classifiers and `tryHunk` -/

theorem classifiers_of_tripleMinus {l : List Char}
    (h : ("---".toList).isPrefixOf l = true) :
    isCtx l = false ∧ isRem l = false ∧ isAdd l = false := by
  rcases isPrefixOf_true_iff.1 h with ⟨t, ht⟩
  subst ht
  refine ⟨rfl, ?_, rfl⟩
  simp [isRem, List.isPrefixOf]

theorem classifiers_of_triplePlus {l : List Char}
    (h : ("+++".toList).isPrefixOf l = true) :
    isCtx l = false ∧ isRem l = false ∧ isAdd l = false := by
  rcases isPrefixOf_true_iff.1 h with ⟨t, ht⟩
  subst ht
  refine ⟨rfl, rfl, ?_⟩
  simp [isAdd, List.isPrefixOf]

/-- Claim C10: a raw `---` removal line and a raw `+++` addition line inside a
hunk body are skipped by every one of the four line collectors, so deleting
such a line from a body changes neither the patterns the fallback matches
against nor the replacement text it inserts, nor the outcome of applying the
hunk to any content. -/
theorem c10_triple_marker_lines_ignored (bs1 bs2 : List (List Char)) (l : List Char)
    (c : List Char)
    (h : ("---".toList).isPrefixOf l = true ∨ ("+++".toList).isPrefixOf l = true) :
    patternLines (bs1 ++ l :: bs2) = patternLines (bs1 ++ bs2)
    ∧ replacementLines (bs1 ++ l :: bs2) = replacementLines (bs1 ++ bs2)
    ∧ removedLines (bs1 ++ l :: bs2) = removedLines (bs1 ++ bs2)
    ∧ addedLines (bs1 ++ l :: bs2) = addedLines (bs1 ++ bs2)
    ∧ tryHunk (bs1 ++ l :: bs2) c = tryHunk (bs1 ++ bs2) c := by
  have hcls : isCtx l = false ∧ isRem l = false ∧ isAdd l = false := by
    rcases h with h | h
    · exact classifiers_of_tripleMinus h
    · exact classifiers_of_triplePlus h
  have h1 : patternLines (bs1 ++ l :: bs2) = patternLines (bs1 ++ bs2) := by
    simp [patternLines, List.filterMap_append, hcls.1, hcls.2.1]
  have h2 : replacementLines (bs1 ++ l :: bs2) = replacementLines (bs1 ++ bs2) := by
    simp [replacementLines, List.filterMap_append, hcls.1, hcls.2.2]
  have h3 : removedLines (bs1 ++ l :: bs2) = removedLines (bs1 ++ bs2) := by
    simp [removedLines, List.filterMap_append, hcls.2.1]
  have h4 : addedLines (bs1 ++ l :: bs2) = addedLines (bs1 ++ bs2) := by
    simp [addedLines, List.filterMap_append, hcls.2.2]
  refine ⟨h1, h2, h3, h4, ?_⟩
  unfold tryHunk
  rw [h1, h2, h3, h4]

/-- Witness for C10 at a concrete body: the hunk `[" ctx", "--- a/f.py",
"-x", "+++ b/f.py", "+y"]` behaves exactly like `[" ctx", "-x", "+y"]`. -/
theorem c10_witness :
    ("---".toList).isPrefixOf ("--- a/f.py".toList) = true
    ∧ tryHunk ([" ctx".toList] ++ ("--- a/f.py".toList) :: ["-x".toList, "+y".toList])
        ("ctx\nx\n".toList)
      = tryHunk ([" ctx".toList] ++ ["-x".toList, "+y".toList]) ("ctx\nx\n".toList) :=
  ⟨by decide,
    (c10_triple_marker_lines_ignored [" ctx".toList] ["-x".toList, "+y".toList]
      ("--- a/f.py".toList) ("ctx\nx\n".toList) (Or.inl (by decide))).2.2.2.2⟩

/-! ## Claim C4: trailing newlines of the normalizer -/

/-- Counterexample to claim C4 as stated: on input `"x\n\n"` the normalizer
returns `"x\n\n"`, which ends with two newlines, not exactly one — the code
only appends a newline when one is missing, it never removes extras. -/
theorem c4_counterexample :
    normalize_unified_diff ("x\n\n".toList) = "x\n\n".toList
    ∧ (("\n\n".toList).isSuffixOf (normalize_unified_diff ("x\n\n".toList))) = true := by
  constructor
  · decide
  · decide

theorem step5_ends_nl (n : List Char) :
    ∃ r, (if (['\n']).isSuffixOf n then n else n ++ ['\n']) = r ++ ['\n'] := by
  by_cases h : (['\n']).isSuffixOf n = true
  · rw [if_pos h]
    rcases List.isSuffixOf_iff_suffix.1 h with ⟨t, ht⟩
    exact ⟨t, ht.symm⟩
  · rw [if_neg h]
    exact ⟨n, rfl⟩

/-- Claim C4 (amended): the normalizer's output always ends with a newline —
at least one; trailing blank lines in the input are preserved, so the output
can end with more than one newline. -/
theorem c4_amended_ends_with_newline (d : List Char) :
    ∃ r, normalize_unified_diff d = r ++ ['\n'] := by
  unfold normalize_unified_diff
  exact step5_ends_nl _

/-! ## Claim C7: the empty diff fails fast with no effects -/

/-- Claim C7: an input that is empty after stripping produces the
`Empty diff content` failure with an empty effect trace — no temp file is
written, no tool mode runs, the fallback never runs, and no file is written. -/
theorem c7_empty_diff (diff patchPath diag : List Char) (toolExit : Nat → Bool)
    (fs : List Char → Option (List Char)) (h : pyStrip diff = []) :
    apply_patch diff patchPath toolExit diag fs =
      ⟨false, "Empty diff content".toList, [], none⟩ := by
  unfold apply_patch
  rw [h]
  rfl

/-- Witness for C7 at the concrete whitespace-only input `"  \n "`. -/
theorem c7_witness :
    pyStrip ("  \n ".toList) = []
    ∧ apply_patch ("  \n ".toList) ("/tmp/t.patch".toList) (fun _ => true) []
        (fun _ => none) = ⟨false, "Empty diff content".toList, [], none⟩ :=
  ⟨by decide,
    c7_empty_diff ("  \n ".toList) ("/tmp/t.patch".toList) [] (fun _ => true)
      (fun _ => none) (by decide)⟩

/-! ## Claim C8: first structural success short-circuits everything -/

/-- Claim C8: whenever some of the five `git apply` modes exits 0, the first
such mode (in the fixed order 0..4) wins: `apply_patch` succeeds with that
mode's message, the effect trace shows exactly the tool runs up to and
including the winner followed by the temp-file deletion, the fallback engine
never runs, and no target file is written. -/
theorem c8_structural_success (diff patchPath diag : List Char) (toolExit : Nat → Bool)
    (fs : List Char → Option (List Char)) (hne : pyStrip diff ≠ [])
    (hex : ∃ i, i < 5 ∧ toolExit i = true) :
    ∃ i, i < 5 ∧ toolExit i = true ∧ (∀ j, j < i → toolExit j = false) ∧
      apply_patch diff patchPath toolExit diag fs =
        ⟨true, modeMsg i patchPath,
          Effect.tempWrite (normalize_unified_diff (pyStrip diff)) ::
            ((List.range (i + 1)).map Effect.toolRun ++ [Effect.tempDelete]), none⟩ ∧
      Effect.fallbackRun ∉ (apply_patch diff patchPath toolExit diag fs).effects := by
  have hne' : (pyStrip diff).isEmpty = false := by
    cases hh : pyStrip diff with
    | nil => exact absurd hh hne
    | cons a t => rfl
  by_cases h0 : toolExit 0 = true
  · refine ⟨0, by omega, h0, fun j hj => absurd hj (by omega), ?_, ?_⟩ <;>
      simp [apply_patch, hne', h0, List.range_succ, modeMsg]
  · by_cases h1 : toolExit 1 = true
    · refine ⟨1, by omega, h1, ?_, ?_, ?_⟩
      · intro j hj
        interval_cases j
        simpa using h0
      · simp [apply_patch, hne', h0, h1, List.range_succ]
      · simp [apply_patch, hne', h0, h1]
    · by_cases h2 : toolExit 2 = true
      · refine ⟨2, by omega, h2, ?_, ?_, ?_⟩
        · intro j hj
          interval_cases j
          · simpa using h0
          · simpa using h1
        · simp [apply_patch, hne', h0, h1, h2, List.range_succ]
        · simp [apply_patch, hne', h0, h1, h2]
      · by_cases h3 : toolExit 3 = true
        · refine ⟨3, by omega, h3, ?_, ?_, ?_⟩
          · intro j hj
            interval_cases j
            · simpa using h0
            · simpa using h1
            · simpa using h2
          · simp [apply_patch, hne', h0, h1, h2, h3, List.range_succ]
          · simp [apply_patch, hne', h0, h1, h2, h3]
        · by_cases h4 : toolExit 4 = true
          · refine ⟨4, by omega, h4, ?_, ?_, ?_⟩
            · intro j hj
              interval_cases j
              · simpa using h0
              · simpa using h1
              · simpa using h2
              · simpa using h3
            · simp [apply_patch, hne', h0, h1, h2, h3, h4, List.range_succ]
            · simp [apply_patch, hne', h0, h1, h2, h3, h4]
          · exfalso
            rcases hex with ⟨i, hi, hti⟩
            interval_cases i
            · exact absurd hti h0
            · exact absurd hti h1
            · exact absurd hti h2
            · exact absurd hti h3
            · exact absurd hti h4

/-- Witness for C8: a nonempty diff with modes 0 and 1 failing and mode 2
succeeding yields the mode-2 success with no fallback effect. -/
theorem c8_witness :
    pyStrip ("--- a/f\n+++ b/f\n".toList) ≠ []
    ∧ (∃ i, i < 5 ∧ (fun i => decide (i = 2)) i = true)
    ∧ ∃ i, i < 5 ∧ (fun i => decide (i = 2)) i = true
        ∧ (∀ j, j < i → (fun i => decide (i = 2)) j = false)
        ∧ apply_patch ("--- a/f\n+++ b/f\n".toList) ("/tmp/p".toList)
            (fun i => decide (i = 2)) [] (fun _ => none) =
          ⟨true, modeMsg i ("/tmp/p".toList),
            Effect.tempWrite (normalize_unified_diff (pyStrip ("--- a/f\n+++ b/f\n".toList))) ::
              ((List.range (i + 1)).map Effect.toolRun ++ [Effect.tempDelete]), none⟩
        ∧ Effect.fallbackRun ∉ (apply_patch ("--- a/f\n+++ b/f\n".toList) ("/tmp/p".toList)
            (fun i => decide (i = 2)) [] (fun _ => none)).effects :=
  ⟨by decide, ⟨2, by omega, by decide⟩,
    c8_structural_success ("--- a/f\n+++ b/f\n".toList) ("/tmp/p".toList) []
      (fun i => decide (i = 2)) (fun _ => none) (by decide) ⟨2, by omega, by decide⟩⟩

/-! ## `applyHunks` lemmas, claims C9 and C1 -/

theorem applyHunks_cons_none {b : List (List Char)} {bs : List (List (List Char))}
    {c : List Char} (h : tryHunk b c = none) : applyHunks (b :: bs) c = none := by
  rw [applyHunks, h]

theorem applyHunks_cons_some {b : List (List Char)} {bs : List (List (List Char))}
    {c c1 : List Char} (h : tryHunk b c = some c1) :
    applyHunks (b :: bs) c =
      match applyHunks bs c1 with
      | none => none
      | some (c'', n) => some (c'', n + 1) := by
  rw [applyHunks, h]

theorem applyHunks_none_of_mem {bs : List (List (List Char))} {b : List (List Char)}
    (hb : b ∈ bs) (hfail : ∀ c', tryHunk b c' = none) (c : List Char) :
    applyHunks bs c = none := by
  induction bs generalizing c with
  | nil => exact absurd hb (by simp)
  | cons b0 bs' ih =>
    rw [List.mem_cons] at hb
    rcases hb with hb | hb
    · subst hb
      exact applyHunks_cons_none (hfail c)
    · cases ht : tryHunk b0 c with
      | none => exact applyHunks_cons_none ht
      | some c1 => rw [applyHunks_cons_some ht, ih hb c1]

theorem applyHunks_none_midway {bs : List (List (List Char))} {c : List Char}
    (h : ∃ k b c', bs[k]? = some b
      ∧ applyHunks (bs.take k) c = some (c', k)
      ∧ tryHunk b c' = none) :
    applyHunks bs c = none := by
  induction bs generalizing c with
  | nil =>
    rcases h with ⟨k, b, c', hget, _⟩
    simp at hget
  | cons b0 bs' ih =>
    rcases h with ⟨k, b, c', hget, htake, hfail⟩
    cases k with
    | zero =>
      rw [List.take_zero, applyHunks] at htake
      rw [Option.some.injEq, Prod.mk.injEq] at htake
      rw [List.getElem?_cons_zero, Option.some.injEq] at hget
      rw [← hget, ← htake.1] at hfail
      exact applyHunks_cons_none hfail
    | succ k' =>
      cases ht : tryHunk b0 c with
      | none => exact applyHunks_cons_none ht
      | some c1 =>
        rw [List.take_succ_cons, applyHunks_cons_some ht] at htake
        cases hrec : applyHunks (bs'.take k') c1 with
        | none => rw [hrec] at htake; exact absurd htake (by simp)
        | some p =>
          rw [hrec] at htake
          rcases p with ⟨c2, n⟩
          rw [Option.some.injEq, Prod.mk.injEq] at htake
          obtain ⟨hc2, hn⟩ := htake
          have hn' : n = k' := by omega
          subst hn'
          subst hc2
          rw [List.getElem?_cons_succ] at hget
          have hres := ih (c := c1) ⟨n, b, c2, hget, hrec, hfail⟩
          rw [applyHunks_cons_some ht, hres]

/-- A body whose lines all start with `'+'` contributes nothing to the
context+removal pattern and has no removed lines, so no strategy can match. -/
theorem tryHunk_all_plus {b : List (List Char)}
    (hall : ∀ l ∈ b, l.head? = some '+') (c : List Char) : tryHunk b c = none := by
  have hcls : ∀ l ∈ b, isCtx l = false ∧ isRem l = false := by
    intro l hl
    cases l with
    | nil => exact absurd (hall [] hl) (by simp)
    | cons x t =>
      have hx : x = '+' := by
        have := hall _ hl
        simpa using this
      subst hx
      exact ⟨rfl, rfl⟩
  have hpat : patternLines b = [] := by
    rw [patternLines, List.filterMap_eq_nil]
    intro l hl
    rw [(hcls l hl).1, (hcls l hl).2]
    simp
  have hrem : removedLines b = [] := by
    rw [removedLines, List.filterMap_eq_nil]
    intro l hl
    rw [(hcls l hl).2]
    simp
  unfold tryHunk
  rw [hpat, hrem]
  simp [joinLines]

/-- Claim C9: when the fallback engine reaches the hunk loop (a `+++` header
resolving to an existing file) and some hunk body consists solely of addition
lines, the whole invocation fails with the hunk-mismatch message and the
target file is not written. -/
theorem c9_pure_insertion_fails (diff : List Char) (fs : List Char → Option (List Char))
    (g content : List Char)
    (hg : findPlus (normEol diff) = some g)
    (hfs : fs (resolveTarget g) = some content)
    (hb : ∃ b ∈ findHunks (normEol diff), b ≠ [] ∧ ∀ l ∈ b, l.head? = some '+') :
    fallback_apply_by_search_replace diff fs =
      ⟨false, "Fallback: unable to match hunk to file content".toList, none⟩ := by
  rcases hb with ⟨b, hbmem, _, hball⟩
  have happ : applyHunks (findHunks (normEol diff)) content = none :=
    applyHunks_none_of_mem hbmem (tryHunk_all_plus hball) content
  simp only [fallback_apply_by_search_replace, hg, hfs, happ]


/-- Claim C1: if, with the in-memory content reached after some earlier hunks
already applied, the next hunk matches neither the context+removal pattern,
nor the removal-only block, nor the first removed line, then the fallback
invocation fails with the hunk-mismatch message and performs no file write —
the in-memory buffer is discarded. -/
theorem c1_mismatch_no_partial_write (diff : List Char)
    (fs : List Char → Option (List Char)) (g content : List Char)
    (hg : findPlus (normEol diff) = some g)
    (hfs : fs (resolveTarget g) = some content)
    (hmm : ∃ k b c', (findHunks (normEol diff))[k]? = some b
      ∧ applyHunks ((findHunks (normEol diff)).take k) content = some (c', k)
      ∧ tryHunk b c' = none) :
    fallback_apply_by_search_replace diff fs =
      ⟨false, "Fallback: unable to match hunk to file content".toList, none⟩ := by
  have happ : applyHunks (findHunks (normEol diff)) content = none :=
    applyHunks_none_midway hmm
  simp only [fallback_apply_by_search_replace, hg, hfs, happ]


/-! ## Claim C6: unprefixed headers gain prefixes and a `diff --git` preamble -/

theorem foldl_stepPaths_keep (ls : List (List Char)) (a b : List Char) :
    ls.foldl stepPaths (some a, some b) = (some a, some b) := by
  induction ls with
  | nil => rfl
  | cons l ls' ih =>
    rw [List.foldl_cons]
    have hstep : stepPaths (some a, some b) l = (some a, some b) := by
      unfold stepPaths
      cases headerParse l with
      | none => rfl
      | some p =>
        rcases p with ⟨t, q⟩
        cases t with
        | true => simp
        | false => simp
    rw [hstep, ih]

/-- Claim C6: a diff whose first two headers are the bare `--- old.py` and
`+++ new.py` (whatever follows them) is normalized to carry `a/` / `b/`
prefixed headers with a `diff --git a/old.py b/new.py` preamble line
prepended. -/
theorem c6_header_rewrite (body : List Char) :
    ∃ rest, normalize_unified_diff (("--- old.py\n+++ new.py\n").toList ++ body) =
      ("diff --git a/old.py b/new.py\n--- a/old.py\n+++ b/new.py\n").toList ++ rest := by
  unfold normalize_unified_diff
  rw [normEol_append body (by decide)]
  rw [show ("--- old.py\n+++ new.py\n").toList ++ normEol body =
      ("--- old.py").toList ++ '\n' :: (("+++ new.py").toList ++ '\n' :: normEol body)
      from rfl]
  rw [splitLines_append, splitLines_append]
  rw [show splitLines (("--- old.py").toList) = [("--- old.py").toList] from by decide]
  rw [show splitLines (("+++ new.py").toList) = [("+++ new.py").toList] from by decide]
  simp only [List.cons_append, List.nil_append, List.map_cons, List.foldl_cons,
    collectPaths]
  rw [show processLine (("--- old.py").toList) = ("--- a/old.py").toList from by decide]
  rw [show processLine (("+++ new.py").toList) = ("+++ b/new.py").toList from by decide]
  rw [show stepPaths (none, none) (("--- old.py").toList) =
      (some (("a/old.py").toList), none) from by decide]
  rw [show stepPaths (some (("a/old.py").toList), none) (("+++ new.py").toList) =
      (some (("a/old.py").toList), some (("b/new.py").toList)) from by decide]
  rw [foldl_stepPaths_keep]
  rw [joinLines_cons _ _ (by simp)]
  rw [joinLines_cons _ _ (by
    intro hmap
    rw [List.map_eq_nil] at hmap
    exact splitLines_ne_nil (normEol body) hmap)]
  set tail := joinLines (List.map processLine (splitLines (normEol body))) with htail
  show ∃ rest,
    (if (['\n']).isSuffixOf
        (dgLine (("a/old.py").toList) (("b/new.py").toList) ++
          '\n' :: (("--- a/old.py").toList ++ '\n' :: (("+++ b/new.py").toList ++ '\n' :: tail)))
        = true then
      dgLine (("a/old.py").toList) (("b/new.py").toList) ++
        '\n' :: (("--- a/old.py").toList ++ '\n' :: (("+++ b/new.py").toList ++ '\n' :: tail))
     else
      (dgLine (("a/old.py").toList) (("b/new.py").toList) ++
        '\n' :: (("--- a/old.py").toList ++ '\n' :: (("+++ b/new.py").toList ++ '\n' :: tail)))
        ++ ['\n'])
      = ("diff --git a/old.py b/new.py\n--- a/old.py\n+++ b/new.py\n").toList ++ rest
  by_cases hsf : (['\n']).isSuffixOf
      (dgLine (("a/old.py").toList) (("b/new.py").toList) ++
        '\n' :: (("--- a/old.py").toList ++ '\n' :: (("+++ b/new.py").toList ++ '\n' :: tail)))
      = true
  · rw [if_pos hsf]
    exact ⟨tail, rfl⟩
  · rw [if_neg hsf]
    refine ⟨tail ++ ['\n'], ?_⟩
    rw [show ("diff --git a/old.py b/new.py\n--- a/old.py\n+++ b/new.py\n").toList ++
        (tail ++ ['\n']) =
        ((("diff --git a/old.py b/new.py\n--- a/old.py\n+++ b/new.py\n").toList ++ tail)
          ++ ['\n'])
        from (List.append_assoc _ _ _).symm]
    rfl

/-! ## Claim C2: every hunk is found, in order, and applied sequentially -/

theorem dropLine_render {l : List Char} (b : List Char) (hnl : '\n' ∉ l) :
    dropLine (l ++ '\n' :: b) = some b := by
  induction l with
  | nil => rfl
  | cons c l' ih =>
    have hc : c ≠ '\n' := fun hc => hnl (by simp [hc])
    rw [List.cons_append, dropLine, if_neg hc]
    exact ih (fun hm => hnl (List.mem_cons_of_mem _ hm))

theorem atAt_notPrefix {c : Char} (x : List Char) (hc : c ≠ '@') :
    ("@@").toList.isPrefixOf (c :: x) = false := by
  show (('@' == c) && (['@'].isPrefixOf x)) = false
  have hb : ('@' == c) = false := by
    cases hq : ('@' == c)
    · rfl
    · exact absurd ((eq_of_beq hq).symm) hc
  rw [hb, Bool.false_and]

theorem atAt_notPrefix_pad {l : List Char} (b : List Char)
    (h : ("@@").toList.isPrefixOf l = false) (hnl : '\n' ∉ l) :
    ("@@").toList.isPrefixOf (l ++ '\n' :: b) = false := by
  match l with
  | [] =>
    rw [List.nil_append]
    exact atAt_notPrefix _ (by decide)
  | [c] =>
    by_cases hc : c = '@'
    · subst hc
      rw [List.cons_append, List.nil_append]
      simp [List.isPrefixOf]
    · rw [List.cons_append, List.nil_append]
      exact atAt_notPrefix _ hc
  | c :: d :: t =>
    rw [List.cons_append, List.cons_append]
    simp only [List.isPrefixOf, Bool.and_eq_false_iff] at h ⊢
    rcases h with h | h
    · exact Or.inl h
    · rcases h with h | h
      · exact Or.inr (Or.inl h)
      · exact absurd h (by simp [List.isPrefixOf])

theorem findHunks_skip {l : List Char} (b : List Char)
    (h : ("@@").toList.isPrefixOf l = false) (hnl : '\n' ∉ l) :
    findHunks (l ++ '\n' :: b) = findHunks b := by
  rw [findHunks]
  rw [atAt_notPrefix_pad b h hnl]
  rw [if_neg (by simp)]
  rw [dropLine_render b hnl]

theorem findHunks_renderLines {pre : List (List Char)} (x : List Char)
    (hpre : wfPre pre = true) :
    findHunks (renderLines pre ++ x) = findHunks x := by
  induction pre with
  | nil => rfl
  | cons l pre' ih =>
    rw [wfPre, List.all_cons, Bool.and_eq_true] at hpre
    rcases hpre with ⟨hl, hrest⟩
    rw [Bool.and_eq_true] at hl
    have hnp : ("@@").toList.isPrefixOf l = false := by
      rcases hl with ⟨h1, _⟩
      cases hb : ("@@").toList.isPrefixOf l
      · rfl
      · rw [hb] at h1; exact absurd h1 (by simp)
    have hnl : '\n' ∉ l := by
      rcases hl with ⟨_, h2⟩
      intro hm
      have := (List.all_eq_true.1 h2) _ hm
      simp at this
    rw [renderLines, List.append_assoc, List.cons_append]
    rw [findHunks_skip _ hnp hnl]
    exact ih hrest

theorem findCloseAt_skip_mid {mid : List Char} (s : List Char)
    (h : ∀ c ∈ mid, c ≠ '@' ∧ c ≠ '\n') :
    findCloseAt (mid ++ s) = findCloseAt s := by
  induction mid with
  | nil => rfl
  | cons c mid' ih =>
    rw [List.cons_append, findCloseAt]
    rw [atAt_notPrefix _ (h c (List.mem_cons_self _ _)).1]
    simp only [Bool.false_eq_true, if_false]
    rw [if_neg (h c (List.mem_cons_self _ _)).2]
    exact ih (fun d hd => h d (List.mem_cons_of_mem _ hd))

theorem wsNlBody_allspace {w : List Char} (s' : List Char)
    (hw : ∀ c ∈ w, isPySpace c = true) (hnl : '\n' ∉ w)
    (hs : s' = [] ∨ ∃ c t, s' = c :: t ∧ isPySpace c = false) :
    wsNlBody (w ++ s') = none := by
  induction w with
  | nil =>
    rw [List.nil_append]
    rcases hs with hs | ⟨c, t, hct, hc⟩
    · rw [hs, wsNlBody]
    · rw [hct, wsNlBody, hc]
      simp
  | cons c w' ih =>
    rw [List.cons_append, wsNlBody, hw c (List.mem_cons_self _ _)]
    simp only [if_true]
    rw [ih (fun d hd => hw d (List.mem_cons_of_mem _ hd))
      (fun hm => hnl (List.mem_cons_of_mem _ hm))]
    rw [if_neg (fun hc => hnl (by simp [hc]))]

theorem wsNlBody_nl {s : List Char} (h : wsNlBody s = none) :
    wsNlBody ('\n' :: s) = bodyLines s := by
  rw [wsNlBody, h]
  simp [isPySpace]

theorem bodyLines_render {body : List (List Char)} (rest : List Char)
    (hne : body ≠ [])
    (hwf : ∀ l ∈ body, l ≠ [] ∧ isMarker (l.headD ' ') = true ∧ '\n' ∉ l)
    (hrest : rest = [] ∨ ∃ c t, rest = c :: t ∧ isMarker c = false) :
    bodyLines (renderLines body ++ rest) = some (body, rest) := by
  induction body with
  | nil => exact absurd rfl hne
  | cons l ls ih =>
    rcases hwf l (List.mem_cons_self _ _) with ⟨hlne, hm, hlnl⟩
    cases l with
    | nil => exact absurd rfl hlne
    | cons c content =>
      rw [List.headD_cons] at hm
      have hcontnl : ∀ x ∈ content, x ≠ '\n' := by
        intro x hx hxn
        exact hlnl (by rw [hxn] at hx; exact List.mem_cons_of_mem _ hx)
      rw [renderLines, List.append_assoc, List.cons_append, List.cons_append]
      rw [bodyLines]
      rw [if_pos hm]
      have htw : (content ++ '\n' :: (renderLines ls ++ rest)).takeWhile
          (fun x => x ≠ '\n') = content := by
        rw [List.takeWhile_append_of_pos (by
          intro a ha
          have := hcontnl a ha
          simpa using this)]
        rw [List.takeWhile_cons_of_neg (by simp)]
        simp
      have hdw : (content ++ '\n' :: (renderLines ls ++ rest)).dropWhile
          (fun x => x ≠ '\n') = '\n' :: (renderLines ls ++ rest) := by
        rw [List.dropWhile_append_of_pos (by
          intro a ha
          have := hcontnl a ha
          simpa using this)]
        rw [List.dropWhile_cons_of_neg (by simp)]
      rw [htw, hdw]
      simp only [List.isEmpty_cons, List.tail_cons]
      cases ls with
      | nil =>
        rw [renderLines, List.nil_append]
        rcases hrest with hrest | ⟨d, t, hdt, hd⟩
        · rw [hrest, bodyLines]
          rfl
        · rw [hdt, bodyLines, hd]
          simp
      | cons l1 ls' =>
        have hb := ih (by simp) (fun x hx => hwf x (List.mem_cons_of_mem _ hx))
        rw [hb]
        rfl

theorem findCloseAt_close {z : List Char} {p : List (List Char) × List Char}
    (h : wsNlBody z = some p) : findCloseAt ('@' :: '@' :: z) = some p := by
  rw [findCloseAt]
  rw [if_pos (by simp [List.isPrefixOf])]
  rw [show ('@' :: '@' :: z).drop 2 = z from rfl, h]

theorem renderLines_first_nonspace {body : List (List Char)}
    (hne : body ≠ [])
    (hwf : ∀ l ∈ body, l ≠ [] ∧ isMarker (l.headD ' ') = true ∧ '\n' ∉ l)
    (hany : ((body.headD []).any (fun c => !isPySpace c)) = true)
    (rest : List Char)
    (hrest : rest = [] ∨ ∃ c t, rest = c :: t ∧ isMarker c = false) :
    wsNlBody ('\n' :: (renderLines body ++ rest)) =
      some (body, rest) := by
  cases body with
  | nil => exact absurd rfl hne
  | cons l ls =>
    rw [List.headD_cons] at hany
    have hlnl : '\n' ∉ l := (hwf l (List.mem_cons_self _ _)).2.2
    have hwsnone : wsNlBody (renderLines (l :: ls) ++ rest) = none := by
      have hsplit : l = l.takeWhile isPySpace ++ l.dropWhile isPySpace :=
        (List.takeWhile_append_dropWhile isPySpace l).symm
      have hdwne : l.dropWhile isPySpace ≠ [] := by
        intro hd
        rw [List.dropWhile_eq_nil_iff] at hd
        rw [List.any_eq_true] at hany
        rcases hany with ⟨c, hc, hcs⟩
        have := hd c hc
        simp [this] at hcs
      rw [renderLines, List.append_assoc, List.cons_append]
      rw [show l ++ ('\n' :: (renderLines ls ++ rest)) =
        l.takeWhile isPySpace ++ (l.dropWhile isPySpace ++ ('\n' :: (renderLines ls ++ rest)))
        from by rw [← List.append_assoc, ← hsplit]]
      refine wsNlBody_allspace _ (fun c hc => List.mem_takeWhile_imp hc) ?_ ?_
      · intro hm
        exact hlnl ((List.takeWhile_sublist isPySpace).subset hm)
      · right
        cases hdw : l.dropWhile isPySpace with
        | nil => exact absurd hdw hdwne
        | cons d t =>
          refine ⟨d, t ++ ('\n' :: (renderLines ls ++ rest)), by rw [List.cons_append], ?_⟩
          have := List.head?_dropWhile_not isPySpace l
          rw [hdw] at this
          simpa using this
    rw [wsNlBody_nl hwsnone]
    exact bodyLines_render rest hne hwf hrest

theorem findHunks_renderHunks {hs : List Hunk} (hwf : hs.all wfHunk = true) :
    findHunks (renderHunks hs) = hs.map Hunk.body := by
  induction hs with
  | nil =>
    rw [renderHunks, findHunks]
    simp [List.isPrefixOf, dropLine]
  | cons h hs' ih =>
    rw [List.all_cons, Bool.and_eq_true] at hwf
    rcases hwf with ⟨hh, hrest⟩
    rw [wfHunk] at hh
    rw [Bool.and_eq_true, Bool.and_eq_true, Bool.and_eq_true] at hh
    rcases hh with ⟨⟨⟨hmid, hbne⟩, hblines⟩, hbhead⟩
    have hmid' : ∀ c ∈ h.mid, c ≠ '@' ∧ c ≠ '\n' := by
      intro c hc
      have := (List.all_eq_true.1 hmid) c hc
      rw [Bool.and_eq_true] at this
      constructor
      · simpa using this.1
      · simpa using this.2
    have hbne' : h.body ≠ [] := by
      intro hb
      rw [hb] at hbne
      simp at hbne
    have hblines' : ∀ l ∈ h.body, l ≠ [] ∧ isMarker (l.headD ' ') = true ∧ '\n' ∉ l := by
      intro l hl
      have := (List.all_eq_true.1 hblines) l hl
      rw [Bool.and_eq_true, Bool.and_eq_true] at this
      refine ⟨?_, this.1.2, ?_⟩
      · intro hlnil
        rw [hlnil] at this
        simp at this
      · intro hm
        have h2 := (List.all_eq_true.1 this.2) _ hm
        simp at h2
    have hrestshape : renderHunks hs' = [] ∨
        ∃ c t, renderHunks hs' = c :: t ∧ isMarker c = false := by
      cases hs' with
      | nil => exact Or.inl rfl
      | cons h2 t2 =>
        right
        exact ⟨'@', '@' :: (h2.mid ++ ("@@").toList ++ '\n' :: renderLines h2.body)
          ++ renderHunks t2, by
            rw [renderHunks, renderHunk]
            rw [show ("@@").toList = ['@', '@'] from rfl]
            simp [List.append_assoc], by decide⟩
    rw [renderHunks, renderHunk]
    rw [List.map_cons, ← ih hrest]
    rw [show (("@@").toList ++ h.mid ++ ("@@").toList ++ '\n' :: renderLines h.body)
        ++ renderHunks hs' =
        '@' :: '@' :: (h.mid ++ ('@' :: '@' :: '\n' :: (renderLines h.body ++ renderHunks hs')))
      from by
        rw [show ("@@").toList = ['@', '@'] from rfl]
        simp [List.append_assoc]]
    rw [findHunks]
    rw [if_pos (by simp [List.isPrefixOf])]
    simp only [List.drop_succ_cons, List.drop_zero]
    rw [findCloseAt_skip_mid _ hmid']
    rw [findCloseAt_close (renderLines_first_nonspace hbne' hblines' hbhead _ hrestshape)]

theorem applyHunks_append (bs1 bs2 : List (List (List Char))) (c : List Char) :
    applyHunks (bs1 ++ bs2) c =
      match applyHunks bs1 c with
      | none => none
      | some (c', n) =>
        match applyHunks bs2 c' with
        | none => none
        | some (c'', m) => some (c'', n + m) := by
  induction bs1 generalizing c with
  | nil =>
    simp only [List.nil_append, applyHunks]
    cases h2 : applyHunks bs2 c with
    | none => rfl
    | some p =>
      rcases p with ⟨c'', m⟩
      simp
  | cons b bs1' ih =>
    cases ht : tryHunk b c with
    | none =>
      rw [List.cons_append, applyHunks_cons_none ht, applyHunks_cons_none ht]
    | some c1 =>
      rw [List.cons_append, applyHunks_cons_some ht, applyHunks_cons_some ht, ih c1]
      cases h1 : applyHunks bs1' c1 with
      | none => rfl
      | some p =>
        rcases p with ⟨cA, n⟩
        cases h2 : applyHunks bs2 cA with
        | none => simp only [h2]
        | some q =>
          rcases q with ⟨cB, m⟩
          simp only [h2]
          simp [Nat.add_assoc, Nat.add_comm, Nat.add_left_comm]

theorem applyHunks_count {bs : List (List (List Char))} {c : List Char}
    {r : List Char × Nat} (h : applyHunks bs c = some r) : r.2 = bs.length := by
  induction bs generalizing c r with
  | nil =>
    rw [applyHunks] at h
    cases h
    rfl
  | cons b bs' ih =>
    cases ht : tryHunk b c with
    | none => rw [applyHunks_cons_none ht] at h; exact absurd h (by simp)
    | some c1 =>
      rw [applyHunks_cons_some ht] at h
      cases h2 : applyHunks bs' c1 with
      | none => rw [h2] at h; exact absurd h (by simp)
      | some p =>
        rw [h2] at h
        cases h
        have := ih h2
        simp only [List.length_cons]
        omega

/-- Claim C2: on a diff made of arbitrary non-hunk preamble lines followed by
well-formed hunks, the fallback's hunk scan recovers exactly the hunk bodies,
in the order they appear — none skipped; and the hunk loop processes bodies
strictly in sequence (splitting a body list splits the loop) and, when it
succeeds, reports having applied every hunk of the diff. -/
theorem c2_hunks_in_order (pre : List (List Char)) (hs : List Hunk)
    (hpre : wfPre pre = true) (hwf : hs.all wfHunk = true) :
    findHunks (renderLines pre ++ renderHunks hs) = hs.map Hunk.body
    ∧ (∀ (bs1 bs2 : List (List (List Char))) (c : List Char),
        applyHunks (bs1 ++ bs2) c =
          match applyHunks bs1 c with
          | none => none
          | some (c', n) =>
            match applyHunks bs2 c' with
            | none => none
            | some (c'', m) => some (c'', n + m))
    ∧ (∀ (bs : List (List (List Char))) (c : List Char) (r : List Char × Nat),
        applyHunks bs c = some r → r.2 = bs.length) := by
  refine ⟨?_, fun bs1 bs2 c => applyHunks_append bs1 bs2 c,
    fun bs c r h => applyHunks_count h⟩
  rw [findHunks_renderLines _ hpre]
  exact findHunks_renderHunks hwf

/-- Witness for C2 on a two-hunk diff with `---`/`+++` preamble lines: both
bodies are recovered in order, the loop splits sequentially, and success
counts every hunk. -/
theorem c2_witness :
    (wfPre ["--- a/f".toList, "+++ b/f".toList] = true)
    ∧ ([Hunk.mk (" -1 +1 ".toList) ["-aaa".toList, "+bbb".toList],
        Hunk.mk (" -2 +2 ".toList) [" ctx".toList, "-ccc".toList]].all wfHunk = true)
    ∧ findHunks (renderLines ["--- a/f".toList, "+++ b/f".toList] ++
        renderHunks [Hunk.mk (" -1 +1 ".toList) ["-aaa".toList, "+bbb".toList],
          Hunk.mk (" -2 +2 ".toList) [" ctx".toList, "-ccc".toList]]) =
      [["-aaa".toList, "+bbb".toList], [" ctx".toList, "-ccc".toList]]
    ∧ (applyHunks ([["-aaa".toList, "+bbb".toList]] ++ [[" ctx".toList, "-ccc".toList]])
        ("aaa\nctx\nccc\n".toList) =
          match applyHunks [["-aaa".toList, "+bbb".toList]] ("aaa\nctx\nccc\n".toList) with
          | none => none
          | some (c', n) =>
            match applyHunks [[" ctx".toList, "-ccc".toList]] c' with
            | none => none
            | some (c'', m) => some (c'', n + m))
    ∧ (applyHunks [["-aaa".toList, "+bbb".toList], [" ctx".toList, "-ccc".toList]]
        ("aaa\nctx\nccc\n".toList) = some ("bbb\nctx\n".toList, 2) →
        (("bbb\nctx\n".toList, 2) : List Char × Nat).2 =
          [["-aaa".toList, "+bbb".toList], [" ctx".toList, "-ccc".toList]].length) := by
  refine ⟨by decide, by decide, ?_, ?_, ?_⟩
  · exact (c2_hunks_in_order ["--- a/f".toList, "+++ b/f".toList]
      [Hunk.mk (" -1 +1 ".toList) ["-aaa".toList, "+bbb".toList],
        Hunk.mk (" -2 +2 ".toList) [" ctx".toList, "-ccc".toList]]
      (by decide) (by decide)).1
  · exact (c2_hunks_in_order ["--- a/f".toList, "+++ b/f".toList]
      [Hunk.mk (" -1 +1 ".toList) ["-aaa".toList, "+bbb".toList],
        Hunk.mk (" -2 +2 ".toList) [" ctx".toList, "-ccc".toList]]
      (by decide) (by decide)).2.1 _ _ _
  · exact fun h => (c2_hunks_in_order ["--- a/f".toList, "+++ b/f".toList]
      [Hunk.mk (" -1 +1 ".toList) ["-aaa".toList, "+bbb".toList],
        Hunk.mk (" -2 +2 ".toList) [" ctx".toList, "-ccc".toList]]
      (by decide) (by decide)).2.2 _ _ _ h

/-- Concrete evaluation of the `+++` header search for the C9 witness diff. -/
theorem evalPlus_c9 : findPlus (normEol ("+++ b/f\n@@ -1 +1 @@\n+new line\n".toList)) =
    some ("b/f".toList) := by
  rw [show normEol ("+++ b/f\n@@ -1 +1 @@\n+new line\n".toList) =
    "+++ b/f\n@@ -1 +1 @@\n+new line\n".toList from by decide]
  rw [findPlus]
  rw [show (if ("+++").toList.isPrefixOf ("+++ b/f\n@@ -1 +1 @@\n+new line\n".toList)
      then wsPlus (("+++ b/f\n@@ -1 +1 @@\n+new line\n".toList).drop 3) else none)
      = some ("b/f".toList) from by decide]

/-- Concrete evaluation of the hunk scan for the C9 witness diff, through the
parser-correctness lemmas for rendered hunks. -/
theorem evalHunks_c9 : findHunks (normEol ("+++ b/f\n@@ -1 +1 @@\n+new line\n".toList)) =
    [["+new line".toList]] := by
  rw [show normEol ("+++ b/f\n@@ -1 +1 @@\n+new line\n".toList) =
    renderLines [("+++ b/f").toList] ++
      renderHunks [Hunk.mk ((" -1 +1 ").toList) [("+new line").toList]] from by decide]
  rw [findHunks_renderLines _ (by decide), findHunks_renderHunks (by decide)]
  rfl

/-- Witness for C9: a diff whose only hunk is a pure insertion against an
existing one-line file. -/
theorem c9_witness :
    (findPlus (normEol ("+++ b/f\n@@ -1 +1 @@\n+new line\n".toList)) =
      some ("b/f".toList))
    ∧ ((fun p => if p = "f".toList then some ("old\n".toList) else none)
        (resolveTarget ("b/f".toList)) = some ("old\n".toList))
    ∧ (∃ b ∈ findHunks (normEol ("+++ b/f\n@@ -1 +1 @@\n+new line\n".toList)),
        b ≠ [] ∧ ∀ l ∈ b, l.head? = some '+')
    ∧ fallback_apply_by_search_replace ("+++ b/f\n@@ -1 +1 @@\n+new line\n".toList)
        (fun p => if p = "f".toList then some ("old\n".toList) else none) =
      ⟨false, "Fallback: unable to match hunk to file content".toList, none⟩ :=
  ⟨evalPlus_c9, by decide,
    ⟨["+new line".toList], by rw [evalHunks_c9]; decide, by decide, by decide⟩,
    c9_pure_insertion_fails ("+++ b/f\n@@ -1 +1 @@\n+new line\n".toList)
      (fun p => if p = "f".toList then some ("old\n".toList) else none)
      ("b/f".toList) ("old\n".toList) evalPlus_c9 (by decide)
      ⟨["+new line".toList], by rw [evalHunks_c9]; decide, by decide, by decide⟩⟩

/-- Concrete evaluation of the `+++` header search for the C1 witness diff. -/
theorem evalPlus_c1 :
    findPlus (normEol ("+++ b/f\n@@ -1 +1 @@\n-aaa\n+bbb\n@@ -2 +2 @@\n-zzz\n+yyy\n".toList))
      = some ("b/f".toList) := by
  rw [show normEol ("+++ b/f\n@@ -1 +1 @@\n-aaa\n+bbb\n@@ -2 +2 @@\n-zzz\n+yyy\n".toList) =
    "+++ b/f\n@@ -1 +1 @@\n-aaa\n+bbb\n@@ -2 +2 @@\n-zzz\n+yyy\n".toList from by decide]
  rw [findPlus]
  rw [show (if ("+++").toList.isPrefixOf
        ("+++ b/f\n@@ -1 +1 @@\n-aaa\n+bbb\n@@ -2 +2 @@\n-zzz\n+yyy\n".toList)
      then wsPlus (("+++ b/f\n@@ -1 +1 @@\n-aaa\n+bbb\n@@ -2 +2 @@\n-zzz\n+yyy\n".toList).drop 3)
      else none)
      = some ("b/f".toList) from by decide]

/-- Concrete evaluation of the hunk scan for the C1 witness diff, through the
parser-correctness lemmas for rendered hunks. -/
theorem evalHunks_c1 :
    findHunks (normEol ("+++ b/f\n@@ -1 +1 @@\n-aaa\n+bbb\n@@ -2 +2 @@\n-zzz\n+yyy\n".toList))
      = [["-aaa".toList, "+bbb".toList], ["-zzz".toList, "+yyy".toList]] := by
  rw [show normEol ("+++ b/f\n@@ -1 +1 @@\n-aaa\n+bbb\n@@ -2 +2 @@\n-zzz\n+yyy\n".toList) =
    renderLines [("+++ b/f").toList] ++
      renderHunks [Hunk.mk ((" -1 +1 ").toList) [("-aaa").toList, ("+bbb").toList],
        Hunk.mk ((" -2 +2 ").toList) [("-zzz").toList, ("+yyy").toList]] from by decide]
  rw [findHunks_renderLines _ (by decide), findHunks_renderHunks (by decide)]
  rfl

/-- Witness for C1: two hunks against `"aaa\nqqq\n"`; the first (`-aaa`/`+bbb`)
applies in memory, the second (`-zzz`/`+yyy`) matches nothing, and the file is
left unwritten. -/
theorem c1_witness :
    (findPlus (normEol ("+++ b/f\n@@ -1 +1 @@\n-aaa\n+bbb\n@@ -2 +2 @@\n-zzz\n+yyy\n".toList))
      = some ("b/f".toList))
    ∧ ((fun p => if p = "f".toList then some ("aaa\nqqq\n".toList) else none)
        (resolveTarget ("b/f".toList)) = some ("aaa\nqqq\n".toList))
    ∧ (applyHunks ((findHunks (normEol
          ("+++ b/f\n@@ -1 +1 @@\n-aaa\n+bbb\n@@ -2 +2 @@\n-zzz\n+yyy\n".toList))).take 1)
        ("aaa\nqqq\n".toList) = some ("bbb\nqqq\n".toList, 1))
    ∧ fallback_apply_by_search_replace
        ("+++ b/f\n@@ -1 +1 @@\n-aaa\n+bbb\n@@ -2 +2 @@\n-zzz\n+yyy\n".toList)
        (fun p => if p = "f".toList then some ("aaa\nqqq\n".toList) else none) =
      ⟨false, "Fallback: unable to match hunk to file content".toList, none⟩ :=
  ⟨evalPlus_c1, by decide, by rw [evalHunks_c1]; decide,
    c1_mismatch_no_partial_write
      ("+++ b/f\n@@ -1 +1 @@\n-aaa\n+bbb\n@@ -2 +2 @@\n-zzz\n+yyy\n".toList)
      (fun p => if p = "f".toList then some ("aaa\nqqq\n".toList) else none)
      ("b/f".toList) ("aaa\nqqq\n".toList) evalPlus_c1 (by decide)
      ⟨1, "-zzz".toList :: ["+yyy".toList], "bbb\nqqq\n".toList,
        by rw [evalHunks_c1]; rfl, by rw [evalHunks_c1]; decide, by decide⟩⟩

/-! ## Claim C5: the extracted fenced block -/

/-- Counterexample to claim C5 as stated: for the fence
`` ```diff\nx \n``` `` the block's interior is `"x \n"`; removing only trailing
whitespace-only lines would keep the last non-blank line `"x "` unaltered, but
the code first runs `rstrip()` on the whole interior and returns `"x"`. -/
theorem c5_counterexample :
    extract_diff_block ("```diff\nx \n```").toList = ("x").toList
    ∧ ("x").toList ≠ ("x ").toList := by
  constructor
  · decide
  · decide

theorem pyRStrip_eq_nil_iff {y : List Char} :
    pyRStrip y = [] ↔ ∀ c ∈ y, isPySpace c = true := by
  rw [pyRStrip]
  rw [List.reverse_eq_nil_iff, List.dropWhile_eq_nil_iff]
  constructor
  · intro h c hc
    exact h c (List.mem_reverse.2 hc)
  · intro h c hc
    exact h c (List.mem_reverse.1 hc)

theorem pyStrip_ne_nil {x : List Char} (h : ∃ c ∈ x, isPySpace c = false) :
    pyStrip x ≠ [] := by
  rcases h with ⟨c, hc, hcs⟩
  rw [pyStrip]
  intro hnil
  rw [pyRStrip_eq_nil_iff] at hnil
  have hx : x = x.takeWhile isPySpace ++ x.dropWhile isPySpace :=
    (List.takeWhile_append_dropWhile isPySpace x).symm
  rw [hx, List.mem_append] at hc
  rcases hc with hc | hc
  · have := List.all_eq_true.1 (List.all_takeWhile (p := isPySpace) (l := x)) c hc
    rw [this] at hcs
    exact absurd hcs (by simp)
  · have := hnil c hc
    rw [this] at hcs
    exact absurd hcs (by simp)

/-- The last element of `splitLines r` is the text after the last newline. -/
theorem splitLines_last (r : List Char) :
    ∃ L', splitLines r = L' ++ [(r.reverse.takeWhile (fun c => c ≠ '\n')).reverse] := by
  induction r with
  | nil => exact ⟨[], by decide⟩
  | cons c cs ih =>
    rcases ih with ⟨L', hL⟩
    by_cases hc : c = '\n'
    · subst hc
      refine ⟨[] :: L', ?_⟩
      rw [splitLines, if_pos rfl, hL]
      rw [List.reverse_cons, List.takeWhile_append]
      have hterm : (List.takeWhile (fun c => c ≠ '\n') ['\n']) = [] := by decide
      by_cases hlen : ((cs.reverse.takeWhile (fun c => c ≠ '\n')).length = cs.reverse.length)
      · rw [if_pos hlen, hterm, List.append_nil]
        have : cs.reverse.takeWhile (fun c => c ≠ '\n') = cs.reverse :=
          (List.takeWhile_sublist _).eq_of_length hlen
        rw [this]
        simp
      · rw [if_neg hlen]
        simp
    · rw [splitLines, if_neg hc]
      cases hsp : splitLines cs with
      | nil => exact absurd hsp (splitLines_ne_nil cs)
      | cons l0 ls =>
        rw [hsp] at hL
        cases ls with
        | nil =>
          have hl0 : l0 = cs := by
            have hjoin : joinLines (splitLines cs) = cs := join_split cs
            rw [hsp, joinLines] at hjoin
            exact hjoin
          have hcs : '\n' ∉ cs := by
            rw [← hl0]
            exact noNL_splitLines (s := cs) l0 (by rw [hsp]; exact List.mem_cons_self _ _)
          refine ⟨[], ?_⟩
          rw [List.nil_append, List.cons.injEq]
          refine ⟨?_, rfl⟩
          rw [List.reverse_cons, List.takeWhile_append]
          have htws : cs.reverse.takeWhile (fun x => x ≠ '\n') = cs.reverse := by
            rw [List.takeWhile_eq_self_iff]
            intro x hx
            simp only [ne_eq, decide_eq_true_eq]
            intro hxn
            exact hcs (by rw [← hxn]; exact List.mem_reverse.1 hx)
          rw [if_pos (by rw [htws])]
          rw [List.takeWhile_cons_of_pos (by simpa using hc), List.takeWhile_nil]
          rw [List.reverse_append, List.reverse_reverse]
          rw [show ([c] : List Char).reverse = [c] from rfl, hl0]
          rfl
        | cons lB ls' =>
          have hnlcs : '\n' ∈ cs := by
            by_contra hni
            rw [splitLines_of_noNL hni] at hsp
            rw [List.cons.injEq] at hsp
            exact absurd hsp.2.symm (by simp)
          cases L' with
          | nil =>
            rw [List.nil_append, List.cons.injEq] at hL
            exact absurd hL.2.symm (by simp)
          | cons lA L'' =>
            rw [List.cons_append, List.cons.injEq] at hL
            refine ⟨(c :: l0) :: L'', ?_⟩
            rw [List.cons_append, List.cons.injEq]
            have hafter : ((c :: cs).reverse.takeWhile (fun x => x ≠ '\n')).reverse =
                (cs.reverse.takeWhile (fun x => x ≠ '\n')).reverse := by
              rw [List.reverse_cons, List.takeWhile_append]
              rw [if_neg (by
                intro hlen
                have heq : cs.reverse.takeWhile (fun x => x ≠ '\n') = cs.reverse :=
                  (List.takeWhile_sublist _).eq_of_length hlen
                rw [List.takeWhile_eq_self_iff] at heq
                have := heq '\n' (List.mem_reverse.2 hnlcs)
                simp at this)]
            rw [hafter]
            rw [← hL.2, hL.1]
            exact ⟨rfl, rfl⟩

/-- After `rstrip()`, the blank-line popping loop of `extract_diff_block` is a
no-op: the last line of a right-stripped text is never whitespace-only. -/
theorem extract_rstrip (g : List Char) :
    joinLines (popTrailingBlank (splitLines (pyRStrip g))) = pyRStrip g := by
  by_cases hnil : pyRStrip g = []
  · rw [hnil]
    decide
  · obtain ⟨lc, rt, hrev, hlc⟩ : ∃ lc rt, (pyRStrip g).reverse = lc :: rt
        ∧ isPySpace lc = false := by
      have hdw : (pyRStrip g).reverse = g.reverse.dropWhile isPySpace := by
        rw [pyRStrip, List.reverse_reverse]
      cases hcase : g.reverse.dropWhile isPySpace with
      | nil =>
        exfalso
        apply hnil
        rw [pyRStrip, hcase]
        rfl
      | cons d t =>
        refine ⟨d, t, by rw [hdw, hcase], ?_⟩
        have := List.head?_dropWhile_not isPySpace g.reverse
        rw [hcase] at this
        simpa using this
    have hlcnl : lc ≠ '\n' := by
      intro hq
      rw [hq] at hlc
      exact absurd hlc (by decide)
    obtain ⟨L', hsp⟩ := splitLines_last (pyRStrip g)
    have hmem : lc ∈ ((pyRStrip g).reverse.takeWhile (fun c => c ≠ '\n')).reverse := by
      rw [hrev, List.takeWhile_cons_of_pos (by simpa using hlcnl)]
      simp
    have hblank : ((pyStrip
        (((pyRStrip g).reverse.takeWhile (fun c => c ≠ '\n')).reverse)).isEmpty) = false := by
      have hne := pyStrip_ne_nil ⟨lc, hmem, hlc⟩
      cases hps : pyStrip (((pyRStrip g).reverse.takeWhile (fun c => c ≠ '\n')).reverse) with
      | nil => exact absurd hps hne
      | cons u v => rfl
    rw [hsp, popTrailingBlank, List.reverse_append]
    rw [show (([((pyRStrip g).reverse.takeWhile (fun c => c ≠ '\n')).reverse]).reverse
        ++ L'.reverse) =
      (((pyRStrip g).reverse.takeWhile (fun c => c ≠ '\n')).reverse) :: L'.reverse
      from by simp]
    rw [List.dropWhile_cons_of_neg (by rw [hblank]; simp)]
    rw [List.reverse_cons, List.reverse_reverse]
    rw [← hsp, join_split]

theorem backtick_notPrefix {c : Char} (x : List Char) (hc : c ≠ '`') :
    ("```").toList.isPrefixOf (c :: x) = false := by
  show (('`' == c) && (['`', '`'].isPrefixOf x)) = false
  have hb : ('`' == c) = false := by
    cases hq : ('`' == c)
    · rfl
    · exact absurd ((eq_of_beq hq).symm) hc
  rw [hb, Bool.false_and]

theorem findFence_skip {pre : List Char} (s : List Char) (hp : '`' ∉ pre) :
    findFence (pre ++ s) = findFence s := by
  induction pre with
  | nil => rfl
  | cons c pre' ih =>
    have hc : c ≠ '`' := fun hq => hp (by simp [hq])
    rw [List.cons_append, findFence, matchFenceAt]
    rw [backtick_notPrefix _ hc]
    simp only [Bool.false_eq_true, if_false]
    exact ih (fun hm => hp (List.mem_cons_of_mem _ hm))

theorem findFence_of_match {s : List Char} {g : List Char}
    (hne : s ≠ []) (h : matchFenceAt s = some g) : findFence s = some g := by
  cases s with
  | nil => exact absurd rfl hne
  | cons c cs => rw [findFence, h]

theorem wsNl_nonspace {s : List Char}
    (h : s = [] ∨ ∃ c t, s = c :: t ∧ isPySpace c = false) : wsNl s = none := by
  rcases h with h | ⟨c, t, hct, hc⟩
  · rw [h, wsNl]
  · rw [hct, wsNl, hc]
    simp

theorem wsNl_nl {s : List Char} (h : wsNl s = none) : wsNl ('\n' :: s) = some s := by
  rw [wsNl, h]
  simp [isPySpace]

theorem lazyClose_render {body : List Char} (post : List Char) (hb : '`' ∉ body) :
    lazyClose (body ++ ("```").toList ++ post) = some body := by
  induction body with
  | nil =>
    rw [List.nil_append]
    rw [show ("```").toList ++ post = '`' :: ('`' :: '`' :: post) from rfl]
    rw [lazyClose, if_pos (by simp [List.isPrefixOf])]
  | cons c body' ih =>
    have hc : c ≠ '`' := fun hq => hb (by simp [hq])
    rw [List.cons_append, List.cons_append, lazyClose]
    rw [if_neg (by
      rw [backtick_notPrefix _ hc]
      simp)]
    rw [show body' ++ ("```").toList ++ post =
      body' ++ (("```").toList ++ post) from by rw [List.append_assoc]] at *
    rw [ih (fun hm => hb (List.mem_cons_of_mem _ hm))]
    rfl

theorem matchFence_at (tag body post : List Char)
    (htag : tag = ("diff").toList ∨ tag = ("patch").toList)
    (hb : '`' ∉ body)
    (hh : body = [] ∨ ∃ c t, body = c :: t ∧ isPySpace c = false) :
    matchFenceAt (("```").toList ++ tag ++ '\n' :: (body ++ ("```").toList ++ post)) =
      some body := by
  have hwsnone : wsNl (body ++ ("```").toList ++ post) = none := by
    apply wsNl_nonspace
    rcases hh with hh | ⟨c, t, hct, hc⟩
    · right
      subst hh
      exact ⟨'`', '`' :: '`' :: post, by simp, by decide⟩
    · right
      refine ⟨c, t ++ ("```").toList ++ post, ?_, hc⟩
      rw [hct]
      simp
  have hws : wsNl ('\n' :: (body ++ ("```").toList ++ post)) =
      some (body ++ ("```").toList ++ post) := wsNl_nl hwsnone
  have hlc : lazyClose (body ++ ("```").toList ++ post) = some body :=
    lazyClose_render post hb
  rcases htag with htag | htag
  · subst htag
    rw [show ("```").toList ++ ("diff").toList ++ '\n' :: (body ++ ("```").toList ++ post) =
      '`' :: '`' :: '`' :: (("diff").toList ++ '\n' :: (body ++ ("```").toList ++ post))
      from rfl]
    rw [matchFenceAt, if_pos (by simp [List.isPrefixOf])]
    rw [show ('`' :: '`' :: '`' :: (("diff").toList ++ '\n' ::
        (body ++ ("```").toList ++ post))).drop 3 =
      ("diff").toList ++ '\n' :: (body ++ ("```").toList ++ post) from rfl]
    rw [tryTag, if_pos (isPrefixOf_true_iff.2 (List.prefix_append _ _))]
    rw [show (("diff").toList ++ '\n' :: (body ++ ("```").toList ++ post)).drop
        (("diff").toList.length) = '\n' :: (body ++ ("```").toList ++ post) from rfl]
    rw [hws]
    simp only [hlc]
  · subst htag
    rw [show ("```").toList ++ ("patch").toList ++ '\n' :: (body ++ ("```").toList ++ post) =
      '`' :: '`' :: '`' :: (("patch").toList ++ '\n' :: (body ++ ("```").toList ++ post))
      from rfl]
    rw [matchFenceAt, if_pos (by simp [List.isPrefixOf])]
    rw [show ('`' :: '`' :: '`' :: (("patch").toList ++ '\n' ::
        (body ++ ("```").toList ++ post))).drop 3 =
      ("patch").toList ++ '\n' :: (body ++ ("```").toList ++ post) from rfl]
    rw [show tryTag (("diff").toList)
        (("patch").toList ++ '\n' :: (body ++ ("```").toList ++ post)) = none from by
      rw [tryTag, if_neg (by simp [List.isPrefixOf])]]
    rw [tryTag, if_pos (isPrefixOf_true_iff.2 (List.prefix_append _ _))]
    rw [show (("patch").toList ++ '\n' :: (body ++ ("```").toList ++ post)).drop
        (("patch").toList.length) = '\n' :: (body ++ ("```").toList ++ post) from rfl]
    rw [hws]
    simp only [hlc]

/-- Claim C5 (amended): for an input holding a fenced block tagged `diff` or
`patch` (no backticks in the prose before the fence or in the block, and a
block not opening with whitespace), extraction returns the block's interior
with ALL trailing whitespace stripped — not only whole blank lines but also
trailing whitespace of the last non-blank line (`rstrip` runs before the
blank-line popping loop, which is then a no-op). -/
theorem c5_amended_extract_rstrip (tag pre body post : List Char)
    (htag : tag = ("diff").toList ∨ tag = ("patch").toList)
    (hpre : '`' ∉ pre) (hb : '`' ∉ body)
    (hh : body = [] ∨ ∃ c t, body = c :: t ∧ isPySpace c = false) :
    extract_diff_block
      (pre ++ (("```").toList ++ tag ++ '\n' :: (body ++ ("```").toList ++ post))) =
      pyRStrip body := by
  have hff : findFence
      (pre ++ (("```").toList ++ tag ++ '\n' :: (body ++ ("```").toList ++ post))) =
      some body := by
    rw [findFence_skip _ hpre]
    refine findFence_of_match ?_ (matchFence_at tag body post htag hb hh)
    rcases htag with htag | htag <;> subst htag <;> simp
  rw [extract_diff_block, hff]
  exact extract_rstrip body

/-- Witness for the amended C5: prose, a `diff`-tagged fence whose last line
carries trailing whitespace, and trailing prose. -/
theorem c5_witness :
    (("diff").toList = ("diff").toList ∨ ("diff").toList = ("patch").toList)
    ∧ '`' ∉ ("see: ").toList
    ∧ '`' ∉ ("--- a\n+++ b\nx \n").toList
    ∧ extract_diff_block (("see: ").toList ++ (("```").toList ++ ("diff").toList ++
        '\n' :: (("--- a\n+++ b\nx \n").toList ++ ("```").toList ++ ("!").toList))) =
      pyRStrip (("--- a\n+++ b\nx \n").toList) :=
  ⟨Or.inl rfl, by decide, by decide,
    c5_amended_extract_rstrip ("diff").toList ("see: ").toList
      ("--- a\n+++ b\nx \n").toList ("!").toList (Or.inl rfl) (by decide) (by decide)
      (Or.inr ⟨'-', ("-- a\n+++ b\nx \n").toList, by decide, by decide⟩)⟩

/-! ## Claim C3: idempotence of the normalizer

The proof shows every output of `normalize_unified_diff` is a fixed point:
its lines are already processed (`processLine` is idempotent, because the
canonical path form `canonPath` produces is its own fixed point), its
`a_path`/`b_path` bookkeeping yields the same pair, the `diff --git` preamble
is never added twice, and the trailing newline is already present. -/

theorem dropWhile_idem (p : Char → Bool) (s : List Char) :
    (s.dropWhile p).dropWhile p = s.dropWhile p := by
  cases h : s.dropWhile p with
  | nil => rfl
  | cons c t =>
    rw [List.dropWhile_cons_of_neg]
    have := List.head?_dropWhile_not p s
    rw [h] at this
    simpa using this

theorem pyLStrip_idem (s : List Char) : pyLStrip (pyLStrip s) = pyLStrip s :=
  dropWhile_idem isPySpace s

theorem pyRStrip_idem (s : List Char) : pyRStrip (pyRStrip s) = pyRStrip s := by
  rw [pyRStrip, pyRStrip, List.reverse_reverse, dropWhile_idem]

theorem pyRStrip_append_eq (y : List Char) :
    pyRStrip y ++ (y.reverse.takeWhile isPySpace).reverse = y := by
  rw [pyRStrip, ← List.reverse_append, List.takeWhile_append_dropWhile, List.reverse_reverse]

theorem pyLStrip_cons_nonspace {c : Char} (t : List Char) (h : isPySpace c = false) :
    pyLStrip (c :: t) = c :: t := by
  rw [pyLStrip, List.dropWhile_cons_of_neg (by simp [h])]

theorem pyLStrip_cons_head {c : Char} {t s : List Char}
    (h : pyLStrip s = c :: t) : isPySpace c = false := by
  have := List.head?_dropWhile_not isPySpace s
  rw [pyLStrip] at h
  rw [h] at this
  simpa using this

theorem pyLStrip_eq_cons {c : Char} {t : List Char}
    (h : isPySpace c = true) : pyLStrip (c :: t) ≠ c :: t := by
  rw [pyLStrip, List.dropWhile_cons_of_pos (by simp [h])]
  intro hq
  have hlen : (t.dropWhile isPySpace).length ≤ t.length :=
    (List.dropWhile_sublist isPySpace).length_le
  rw [hq] at hlen
  simp at hlen

theorem pyStrip_stripped (rest : List Char) :
    pyLStrip (pyStrip rest) = pyStrip rest ∧ pyRStrip (pyStrip rest) = pyStrip rest := by
  constructor
  · rw [pyStrip]
    cases hq : pyRStrip (pyLStrip rest) with
    | nil => rfl
    | cons c t =>
      apply pyLStrip_cons_nonspace
      obtain ⟨w, hw⟩ : ∃ w, pyRStrip (pyLStrip rest) ++ w = pyLStrip rest :=
        ⟨((pyLStrip rest).reverse.takeWhile isPySpace).reverse,
          pyRStrip_append_eq (pyLStrip rest)⟩
      rw [hq] at hw
      exact pyLStrip_cons_head (t := t ++ w) (by rw [← hw]; rfl)
  · rw [pyStrip, pyRStrip_idem]

theorem slashOf_space (c : Char) : isPySpace (slashOf c) = isPySpace c := by
  by_cases h : c = '\\'
  · subst h
    decide
  · rw [slashOf, if_neg h]

theorem slashOf_ne_backslash (c : Char) : slashOf c ≠ '\\' := by
  by_cases h : c = '\\'
  · subst h
    decide
  · rw [slashOf, if_neg h]
    exact h

theorem map_eq_self_of {α : Type} {f : α → α} {l : List α} (h : ∀ x ∈ l, f x = x) :
    l.map f = l := by
  induction l with
  | nil => rfl
  | cons x l' ih =>
    rw [List.map_cons, h x (List.mem_cons_self _ _),
      ih (fun y hy => h y (List.mem_cons_of_mem _ hy))]

theorem pyRStrip_eq_self_of {s : List Char}
    (h : s = [] ∨ ∃ c t, s.reverse = c :: t ∧ isPySpace c = false) :
    pyRStrip s = s := by
  rcases h with h | ⟨c, t, hrev, hc⟩
  · rw [h]; rfl
  · rw [pyRStrip, hrev, List.dropWhile_cons_of_neg (by simp [hc]), ← hrev,
      List.reverse_reverse]

theorem pyRStrip_rev_head {s : List Char} {c : Char} {t : List Char}
    (hs : pyRStrip s = s) (hrev : s.reverse = c :: t) : isPySpace c = false := by
  have : s.reverse.dropWhile isPySpace = s.reverse := by
    have := congrArg List.reverse hs
    rw [pyRStrip, List.reverse_reverse] at this
    exact this
  rw [hrev] at this
  by_cases hc : isPySpace c = true
  · exfalso
    rw [List.dropWhile_cons_of_pos (by simp [hc])] at this
    have hlen : (t.dropWhile isPySpace).length ≤ t.length :=
      (List.dropWhile_sublist isPySpace).length_le
    rw [this] at hlen
    simp at hlen
  · simpa using hc

/-- The canonical path is left-stripped, right-stripped, backslash-free, and
carries one of the three accepted leading forms. -/
theorem canonPath_facts (t : Bool) (rest : List Char) :
    pyLStrip (canonPath t rest) = canonPath t rest
    ∧ pyRStrip (canonPath t rest) = canonPath t rest
    ∧ '\\' ∉ canonPath t rest
    ∧ ((("a/").toList.isPrefixOf (canonPath t rest)
        || ("b/").toList.isPrefixOf (canonPath t rest)
        || ("/dev/null").toList.isPrefixOf (canonPath t rest)) = true) := by
  obtain ⟨hqL, hqR⟩ := pyStrip_stripped rest
  have hpL : pyLStrip ((pyStrip rest).map slashOf) = (pyStrip rest).map slashOf := by
    cases hq : pyStrip rest with
    | nil => rfl
    | cons c u =>
      rw [List.map_cons]
      apply pyLStrip_cons_nonspace
      rw [slashOf_space]
      have := pyLStrip_cons_head (by rw [← hq]; exact hqL)
      exact this
  have hpR : pyRStrip ((pyStrip rest).map slashOf) = (pyStrip rest).map slashOf := by
    apply pyRStrip_eq_self_of
    cases hq : (pyStrip rest).reverse with
    | nil =>
      left
      rw [List.reverse_eq_nil_iff] at hq
      rw [hq]
      rfl
    | cons c u =>
      right
      refine ⟨slashOf c, u.map slashOf, ?_, ?_⟩
      · rw [← List.map_reverse, hq, List.map_cons]
      · rw [slashOf_space]
        exact pyRStrip_rev_head hqR hq
  have hpBS : '\\' ∉ (pyStrip rest).map slashOf := by
    intro hm
    rcases List.mem_map.1 hm with ⟨c, _, hc⟩
    exact slashOf_ne_backslash c hc
  rw [canonPath]
  by_cases hA : ((("a/").toList.isPrefixOf ((pyStrip rest).map slashOf)
      || ("b/").toList.isPrefixOf ((pyStrip rest).map slashOf)
      || ("/dev/null").toList.isPrefixOf ((pyStrip rest).map slashOf)) = true)
  · rw [if_pos hA]
    exact ⟨hpL, hpR, hpBS, hA⟩
  · rw [if_neg hA]
    set p := (pyStrip rest).map slashOf with hp
    set r := if ("./").toList.isPrefixOf p then p.drop 2 else p with hr
    have hrsub : ∀ c, c ∈ r → c ∈ p := by
      intro c hc
      rw [hr] at hc
      by_cases hdot : ("./").toList.isPrefixOf p
      · rw [if_pos hdot] at hc
        exact List.drop_subset 2 p hc
      · rw [if_neg hdot] at hc
        exact hc
    have hrrev : ∀ c u, r.reverse = c :: u → isPySpace c = false := by
      intro c u hcu
      rw [hr] at hcu
      by_cases hdot : ("./").toList.isPrefixOf p
      · rw [if_pos hdot] at hcu
        rcases isPrefixOf_true_iff.1 hdot with ⟨w, hw⟩
        have hw2 : p.drop 2 = w := by rw [← hw]; rfl
        rw [hw2] at hcu
        have hprev : p.reverse = c :: (u ++ ['/', '.']) := by
          rw [← hw, List.reverse_append, hcu]
          rfl
        exact pyRStrip_rev_head hpR hprev
      · rw [if_neg hdot] at hcu
        exact pyRStrip_rev_head hpR hcu
    cases t with
    | true =>
      simp only [if_true]
      refine ⟨?_, ?_, ?_, ?_⟩
      · exact pyLStrip_cons_nonspace _ (by decide)
      · apply pyRStrip_eq_self_of
        right
        cases hrv : r.reverse with
        | nil =>
          rw [List.reverse_eq_nil_iff] at hrv
          rw [hrv]
          exact ⟨'/', ['a'], by decide, by decide⟩
        | cons c u =>
          refine ⟨c, u ++ ("a/").toList.reverse, ?_, hrrev c u hrv⟩
          rw [List.reverse_append, hrv]
          rfl
      · intro hm
        rw [List.mem_append] at hm
        rcases hm with hm | hm
        · simp at hm
        · exact hpBS (hrsub _ hm)
      · rw [show ("a/").toList ++ r = 'a' :: '/' :: r from rfl]
        simp [List.isPrefixOf]
    | false =>
      simp only [if_false, Bool.false_eq_true]
      refine ⟨?_, ?_, ?_, ?_⟩
      · exact pyLStrip_cons_nonspace _ (by decide)
      · apply pyRStrip_eq_self_of
        right
        cases hrv : r.reverse with
        | nil =>
          rw [List.reverse_eq_nil_iff] at hrv
          rw [hrv]
          exact ⟨'/', ['b'], by decide, by decide⟩
        | cons c u =>
          refine ⟨c, u ++ ("b/").toList.reverse, ?_, hrrev c u hrv⟩
          rw [List.reverse_append, hrv]
          rfl
      · intro hm
        rw [List.mem_append] at hm
        rcases hm with hm | hm
        · simp at hm
        · exact hpBS (hrsub _ hm)
      · rw [show ("b/").toList ++ r = 'b' :: '/' :: r from rfl]
        simp [List.isPrefixOf]

/-- The canonical path is a fixed point: re-normalizing the path portion of an
already-processed header (one space, then the canonical path) changes
nothing. -/
theorem canonPath_fixed (t : Bool) (rest : List Char) :
    canonPath t (' ' :: canonPath t rest) = canonPath t rest := by
  obtain ⟨hL, hR, hBS, hA⟩ := canonPath_facts t rest
  have hq : pyStrip (' ' :: canonPath t rest) = canonPath t rest := by
    rw [pyStrip, pyLStrip, List.dropWhile_cons_of_pos (by decide), ← pyLStrip, hL, hR]
  have hmap : (canonPath t rest).map slashOf = canonPath t rest :=
    map_eq_self_of (fun c hc => by
      have hcb : ¬ c = '\\' := fun hq' => hBS (hq' ▸ hc)
      rw [slashOf, if_neg hcb])
  rw [canonPath, hq, hmap, if_pos hA]

theorem headerParse_some {l : List Char} {t : Bool} {p : List Char}
    (h : headerParse l = some (t, p)) : p = canonPath t (l.drop 3) := by
  rw [headerParse] at h
  by_cases h1 : ("--- ").toList.isPrefixOf l = true
  · rw [if_pos h1, Option.some.injEq, Prod.mk.injEq] at h
    rw [← h.1, ← h.2]
  · rw [if_neg h1] at h
    by_cases h2 : ("+++ ").toList.isPrefixOf l = true
    · rw [if_pos h2, Option.some.injEq, Prod.mk.injEq] at h
      rw [← h.1, ← h.2]
    · rw [if_neg h2] at h
      exact absurd h (by simp)

theorem headerParse_minus {l : List Char} {t : Bool} {p : List Char}
    (h : headerParse l = some (t, p)) :
    (t = true ∧ ("--- ").toList.isPrefixOf l = true)
    ∨ (t = false ∧ ("+++ ").toList.isPrefixOf l = true) := by
  rw [headerParse] at h
  by_cases h1 : ("--- ").toList.isPrefixOf l = true
  · rw [if_pos h1, Option.some.injEq, Prod.mk.injEq] at h
    exact Or.inl ⟨h.1.symm, h1⟩
  · rw [if_neg h1] at h
    by_cases h2 : ("+++ ").toList.isPrefixOf l = true
    · rw [if_pos h2, Option.some.injEq, Prod.mk.injEq] at h
      exact Or.inr ⟨h.1.symm, h2⟩
    · rw [if_neg h2] at h
      exact absurd h (by simp)

theorem headerParse_mk_minus (p : List Char) :
    headerParse (("--- ").toList ++ p) = some (true, canonPath true (' ' :: p)) := by
  rw [headerParse, if_pos (isPrefixOf_true_iff.2 (List.prefix_append _ _))]
  rfl

theorem headerParse_mk_plus (p : List Char) :
    headerParse (("+++ ").toList ++ p) = some (false, canonPath false (' ' :: p)) := by
  rw [headerParse]
  rw [if_neg (by
    rw [show ("+++ ").toList ++ p = '+' :: (("++ ").toList ++ p) from rfl]
    simp [List.isPrefixOf])]
  rw [if_pos (isPrefixOf_true_iff.2 (List.prefix_append _ _))]
  rfl

/-- Re-parsing a processed line gives exactly the original parse. -/
theorem headerParse_processLine (l : List Char) :
    headerParse (processLine l) = headerParse l := by
  rw [processLine]
  cases hh : headerParse l with
  | none => exact hh
  | some tp =>
    rcases tp with ⟨t, p⟩
    have hp := headerParse_some hh
    cases t with
    | true =>
      rw [headerParse_mk_minus p, hp, canonPath_fixed]
    | false =>
      rw [headerParse_mk_plus p, hp, canonPath_fixed]

theorem processLine_idem (l : List Char) : processLine (processLine l) = processLine l := by
  conv_lhs => rw [processLine, headerParse_processLine]
  cases hh : headerParse l with
  | none => rw [processLine, hh]
  | some tp =>
    rcases tp with ⟨t, p⟩
    cases t with
    | true => rw [processLine, hh]
    | false => rw [processLine, hh]

theorem pyStrip_subset {rest : List Char} : ∀ c ∈ pyStrip rest, c ∈ rest := by
  intro c hc
  rw [pyStrip] at hc
  obtain ⟨w, hw⟩ : ∃ w, pyRStrip (pyLStrip rest) ++ w = pyLStrip rest :=
    ⟨((pyLStrip rest).reverse.takeWhile isPySpace).reverse, pyRStrip_append_eq _⟩
  have h1 : c ∈ pyLStrip rest := by
    rw [← hw, List.mem_append]
    exact Or.inl hc
  exact (List.dropWhile_sublist isPySpace).subset h1

/-- Every character of the canonical path comes from the raw path (possibly a
backslash turned into a slash) or from the literal prefixes it adds. -/
theorem canonPath_chars {c : Char} {t : Bool} {rest : List Char}
    (h : c ∈ canonPath t rest) :
    (∃ d ∈ rest, slashOf d = c) ∨ c = 'a' ∨ c = 'b' ∨ c = '/' := by
  have hsub : ∀ x, x ∈ (pyStrip rest).map slashOf → ∃ d ∈ rest, slashOf d = x := by
    intro x hx
    rcases List.mem_map.1 hx with ⟨d, hd, hdx⟩
    exact ⟨d, pyStrip_subset d hd, hdx⟩
  rw [canonPath] at h
  by_cases hA : ((("a/").toList.isPrefixOf ((pyStrip rest).map slashOf)
      || ("b/").toList.isPrefixOf ((pyStrip rest).map slashOf)
      || ("/dev/null").toList.isPrefixOf ((pyStrip rest).map slashOf)) = true)
  · rw [if_pos hA] at h
    exact Or.inl (hsub c h)
  · rw [if_neg hA] at h
    rw [List.mem_append] at h
    rcases h with h | h
    · cases t with
      | true =>
        rw [if_pos rfl] at h
        rw [show ("a/").toList = ['a', '/'] from rfl] at h
        simp only [List.mem_cons, List.not_mem_nil, or_false] at h
        right
        rcases h with h | h
        · exact Or.inl h
        · exact Or.inr (Or.inr h)
      | false =>
        rw [if_neg (by simp)] at h
        rw [show ("b/").toList = ['b', '/'] from rfl] at h
        simp only [List.mem_cons, List.not_mem_nil, or_false] at h
        right
        rcases h with h | h
        · exact Or.inr (Or.inl h)
        · exact Or.inr (Or.inr h)
    · left
      apply hsub
      by_cases hdot : ("./").toList.isPrefixOf ((pyStrip rest).map slashOf)
      · rw [if_pos hdot] at h
        exact List.drop_subset 2 _ h
      · rw [if_neg hdot] at h
        exact h

/-- Characters of a processed line: from the original line (with backslashes
replaced), or among the literal characters the normalizer introduces. -/
theorem processLine_chars {c : Char} {l : List Char} (h : c ∈ processLine l) :
    (∃ d ∈ l, slashOf d = c) ∨ c ∈ l
    ∨ c = '-' ∨ c = '+' ∨ c = ' ' ∨ c = 'a' ∨ c = 'b' ∨ c = '/' := by
  rw [processLine] at h
  cases hh : headerParse l with
  | none =>
    rw [hh] at h
    exact Or.inr (Or.inl h)
  | some tp =>
    rcases tp with ⟨t, p⟩
    have hp := headerParse_some hh
    rw [hh] at h
    have hin : c ∈ ("--- ").toList ∨ c ∈ ("+++ ").toList ∨ c ∈ p := by
      cases t with
      | true =>
        simp only at h
        rw [List.mem_append] at h
        rcases h with h | h
        · exact Or.inl h
        · exact Or.inr (Or.inr h)
      | false =>
        simp only at h
        rw [List.mem_append] at h
        rcases h with h | h
        · exact Or.inr (Or.inl h)
        · exact Or.inr (Or.inr h)
    rcases hin with hin | hin | hin
    · rw [show ("--- ").toList = ['-', '-', '-', ' '] from rfl] at hin
      simp only [List.mem_cons, List.not_mem_nil, or_false] at hin
      rcases hin with h | h | h | h
      all_goals simp [h]
    · rw [show ("+++ ").toList = ['+', '+', '+', ' '] from rfl] at hin
      simp only [List.mem_cons, List.not_mem_nil, or_false] at hin
      rcases hin with h | h | h | h
      all_goals simp [h]
    · rw [hp] at hin
      rcases canonPath_chars hin with ⟨d, hd, hdc⟩ | hc
      · exact Or.inl ⟨d, List.drop_subset 3 l hd, hdc⟩
      · right
        right
        rcases hc with hc | hc | hc
        all_goals simp [hc]

theorem processLine_noNL {l : List Char} (h : '\n' ∉ l) : '\n' ∉ processLine l := by
  intro hm
  rcases processLine_chars hm with ⟨d, hd, hdc⟩ | hml | hc
  · have : d = '\n' := by
      rw [slashOf] at hdc
      by_cases hb : d = '\\'
      · rw [if_pos hb] at hdc
        exact absurd hdc (by decide)
      · rw [if_neg hb] at hdc
        exact hdc
    exact h (this ▸ hd)
  · exact h hml
  · rcases hc with hc | hc | hc | hc | hc | hc <;> exact absurd hc (by decide)

theorem processLine_noCR {l : List Char} (h : '\r' ∉ l) : '\r' ∉ processLine l := by
  intro hm
  rcases processLine_chars hm with ⟨d, hd, hdc⟩ | hml | hc
  · have : d = '\r' := by
      rw [slashOf] at hdc
      by_cases hb : d = '\\'
      · rw [if_pos hb] at hdc
        exact absurd hdc (by decide)
      · rw [if_neg hb] at hdc
        exact hdc
    exact h (this ▸ hd)
  · exact h hml
  · rcases hc with hc | hc | hc | hc | hc | hc <;> exact absurd hc (by decide)

theorem mem_of_mem_splitLines {c : Char} {s : List Char} {l : List Char}
    (hc : c ∈ l) (hl : l ∈ splitLines s) : c ∈ s := by
  induction s generalizing l with
  | nil =>
    rw [splitLines] at hl
    rw [List.mem_singleton] at hl
    rw [hl] at hc
    exact absurd hc (by simp)
  | cons x cs ih =>
    rw [splitLines] at hl
    by_cases hx : x = '\n'
    · rw [if_pos hx] at hl
      rw [List.mem_cons] at hl
      rcases hl with hl | hl
      · rw [hl] at hc
        exact absurd hc (by simp)
      · exact List.mem_cons_of_mem _ (ih hc hl)
    · rw [if_neg hx] at hl
      cases hsp : splitLines cs with
      | nil => exact absurd hsp (splitLines_ne_nil cs)
      | cons l0 ls =>
        rw [hsp] at hl
        rw [List.mem_cons] at hl
        rcases hl with hl | hl
        · rw [hl] at hc
          rw [List.mem_cons] at hc
          rcases hc with hc | hc
          · rw [hc]
            exact List.mem_cons_self _ _
          · exact List.mem_cons_of_mem _
              (ih hc (by rw [hsp]; exact List.mem_cons_self _ _))
        · exact List.mem_cons_of_mem _ (ih hc (by rw [hsp]; exact List.mem_cons_of_mem _ hl))

theorem joinLines_chars {c : Char} {L : List (List Char)} (h : c ∈ joinLines L) :
    c = '\n' ∨ ∃ l ∈ L, c ∈ l := by
  induction L with
  | nil => exact absurd h (by simp [joinLines])
  | cons l ls ih =>
    cases ls with
    | nil =>
      rw [joinLines] at h
      exact Or.inr ⟨l, List.mem_singleton.2 rfl, h⟩
    | cons l1 ls' =>
      rw [joinLines_cons _ _ (by simp), List.mem_append, List.mem_cons] at h
      rcases h with h | h | h
      · exact Or.inr ⟨l, List.mem_cons_self _ _, h⟩
      · exact Or.inl h
      · rcases ih h with h' | ⟨l', hl', hcl'⟩
        · exact Or.inl h'
        · exact Or.inr ⟨l', List.mem_cons_of_mem _ hl', hcl'⟩

theorem stepPaths_of_none {ab : Option (List Char) × Option (List Char)}
    {l : List Char} (h : headerParse l = none) : stepPaths ab l = ab := by
  rw [stepPaths, h]

theorem foldl_stepPaths_neutral {post : List (List Char)}
    (h : ∀ l ∈ post, headerParse l = none)
    (ab : Option (List Char) × Option (List Char)) :
    post.foldl stepPaths ab = ab := by
  induction post generalizing ab with
  | nil => rfl
  | cons l ls ih =>
    rw [List.foldl_cons, stepPaths_of_none (h l (List.mem_cons_self _ _))]
    exact ih (fun x hx => h x (List.mem_cons_of_mem _ hx)) ab

theorem foldl_stepPaths_map (ls : List (List Char))
    (ab : Option (List Char) × Option (List Char)) :
    (ls.map processLine).foldl stepPaths ab = ls.foldl stepPaths ab := by
  induction ls generalizing ab with
  | nil => rfl
  | cons l ls' ih =>
    rw [List.map_cons, List.foldl_cons, List.foldl_cons]
    rw [show stepPaths ab (processLine l) = stepPaths ab l from by
      rw [stepPaths, stepPaths, headerParse_processLine]]
    exact ih _

/-- Any path recorded by the `a_path` / `b_path` fold comes from the initial
accumulator or from parsing one of the lines. -/
theorem foldl_stepPaths_src (ls : List (List Char)) :
    ∀ (ab : Option (List Char) × Option (List Char)),
    (∀ a, (ls.foldl stepPaths ab).1 = some a →
      ab.1 = some a ∨ ∃ l ∈ ls, headerParse l = some (true, a))
    ∧ (∀ b, (ls.foldl stepPaths ab).2 = some b →
      ab.2 = some b ∨ ∃ l ∈ ls, headerParse l = some (false, b)) := by
  induction ls with
  | nil => exact fun ab => ⟨fun a h => Or.inl h, fun b h => Or.inl h⟩
  | cons l ls' ih =>
    intro ab
    constructor
    · intro a h
      rw [List.foldl_cons] at h
      rcases (ih (stepPaths ab l)).1 a h with h' | ⟨l', hl', hh⟩
      · rw [stepPaths] at h'
        cases hh : headerParse l with
        | none =>
          rw [hh] at h'
          exact Or.inl h'
        | some tp =>
          rcases tp with ⟨t, p⟩
          cases t with
          | true =>
            rw [hh] at h'
            simp only at h'
            by_cases hcond : p ≠ ("/dev/null").toList ∧ ab.1 = none
            · rw [if_pos hcond] at h'
              rw [Option.some.injEq] at h'
              exact Or.inr ⟨l, List.mem_cons_self _ _, by rw [hh, h']⟩
            · rw [if_neg hcond] at h'
              exact Or.inl h'
          | false =>
            rw [hh] at h'
            exact Or.inl h'
      · exact Or.inr ⟨l', List.mem_cons_of_mem _ hl', hh⟩
    · intro b h
      rw [List.foldl_cons] at h
      rcases (ih (stepPaths ab l)).2 b h with h' | ⟨l', hl', hh⟩
      · rw [stepPaths] at h'
        cases hh : headerParse l with
        | none =>
          rw [hh] at h'
          exact Or.inl h'
        | some tp =>
          rcases tp with ⟨t, p⟩
          cases t with
          | true =>
            rw [hh] at h'
            exact Or.inl h'
          | false =>
            rw [hh] at h'
            simp only at h'
            by_cases hcond : p ≠ ("/dev/null").toList ∧ ab.2 = none
            · rw [if_pos hcond] at h'
              rw [Option.some.injEq] at h'
              exact Or.inr ⟨l, List.mem_cons_self _ _, by rw [hh, h']⟩
            · rw [if_neg hcond] at h'
              exact Or.inl h'
      · exact Or.inr ⟨l', List.mem_cons_of_mem _ hl', hh⟩

theorem headerParse_dgLine (a b : List Char) : headerParse (dgLine a b) = none := by
  rw [dgLine, headerParse]
  rw [if_neg (by
    rw [show ("diff --git ").toList ++ a ++ ' ' :: b =
      'd' :: (("iff --git ").toList ++ a ++ ' ' :: b) from by simp
    ]
    simp [List.isPrefixOf])]
  rw [if_neg (by
    rw [show ("diff --git ").toList ++ a ++ ' ' :: b =
      'd' :: (("iff --git ").toList ++ a ++ ' ' :: b) from by simp
    ]
    simp [List.isPrefixOf])]

theorem headerParse_nil : headerParse ([] : List Char) = none := by decide

theorem processLine_of_none {l : List Char} (h : headerParse l = none) :
    processLine l = l := by
  rw [processLine, h]

theorem pyLStrip_prefix_append {x : List Char} (y : List Char)
    (h : (("diff --git ").toList).isPrefixOf (pyLStrip x) = true) :
    (("diff --git ").toList).isPrefixOf (pyLStrip (x ++ y)) = true := by
  have hne : pyLStrip x ≠ [] := by
    intro hq
    rw [hq] at h
    exact absurd h (by decide)
  rw [pyLStrip, List.dropWhile_append]
  rw [if_neg (by
    rw [← pyLStrip]
    intro hq
    rw [List.isEmpty_iff] at hq
    exact hne hq)]
  rw [← pyLStrip]
  rcases isPrefixOf_true_iff.1 h with ⟨w, hw⟩
  exact isPrefixOf_true_iff.2 ⟨w ++ y, by rw [← hw]; simp⟩

/-- A string whose line endings are already unified, whose lines are already
processed, for which the preamble condition does not fire, and which already
ends in a newline, is a fixed point of the normalizer. -/
theorem normalize_fixed (s : List Char)
    (h1 : normEol s = s)
    (h2 : (splitLines s).map processLine = splitLines s)
    (h3 : ∀ a b, collectPaths (splitLines s) = (some a, some b) →
      a = [] ∨ b = [] ∨ (("diff --git ").toList).isPrefixOf (pyLStrip s) = true)
    (h4 : (['\n']).isSuffixOf s = true) :
    normalize_unified_diff s = s := by
  rw [normalize_unified_diff]
  rw [h1, h2, join_split]
  rcases hab : collectPaths (splitLines s) with ⟨a?, b?⟩
  cases a? with
  | none =>
    cases b? with
    | none => rw [if_pos h4]
    | some b => rw [if_pos h4]
  | some a =>
    cases b? with
    | none => rw [if_pos h4]
    | some b =>
      simp only []
      have hneg : ¬ (a ≠ [] ∧ b ≠ [] ∧
          ¬ (("diff --git ").toList).isPrefixOf (pyLStrip s) = true) := by
        rcases h3 a b hab with hc | hc | hc
        · exact fun hcond => hcond.1 hc
        · exact fun hcond => hcond.2.1 hc
        · exact fun hcond => hcond.2.2 (by rw [hc])
      rw [if_neg hneg, if_pos h4]

/-- The normalizer's output is the joined processed lines, possibly with a
final newline appended, possibly with a `diff --git` line prepended; in the
un-prepended case the preamble condition provably failed. -/
theorem normalize_shape (d : List Char) :
    (∃ X, (X = joinLines ((splitLines (normEol d)).map processLine)
          ∨ X = joinLines ((splitLines (normEol d)).map processLine) ++ ['\n'])
      ∧ normalize_unified_diff d = X
      ∧ (∀ a b, collectPaths (splitLines (normEol d)) = (some a, some b) →
          a = [] ∨ b = []
          ∨ (("diff --git ").toList).isPrefixOf
              (pyLStrip (joinLines ((splitLines (normEol d)).map processLine))) = true))
    ∨ (∃ a b Y, collectPaths (splitLines (normEol d)) = (some a, some b)
      ∧ (Y = joinLines ((splitLines (normEol d)).map processLine)
          ∨ Y = joinLines ((splitLines (normEol d)).map processLine) ++ ['\n'])
      ∧ normalize_unified_diff d = dgLine a b ++ '\n' :: Y) := by
  rcases hab : collectPaths (splitLines (normEol d)) with ⟨a?, b?⟩
  rw [normalize_unified_diff, hab]
  cases a? with
  | none =>
    cases b? with
    | none =>
      by_cases hsuf : (['\n']).isSuffixOf
          (joinLines ((splitLines (normEol d)).map processLine)) = true
      · rw [if_pos hsuf]
        exact Or.inl ⟨_, Or.inl rfl, rfl,
          fun a b h => absurd h (by simp)⟩
      · rw [if_neg hsuf]
        exact Or.inl ⟨_, Or.inr rfl, rfl,
          fun a b h => absurd h (by simp)⟩
    | some b =>
      by_cases hsuf : (['\n']).isSuffixOf
          (joinLines ((splitLines (normEol d)).map processLine)) = true
      · rw [if_pos hsuf]
        exact Or.inl ⟨_, Or.inl rfl, rfl,
          fun a' b' h => absurd h (by simp)⟩
      · rw [if_neg hsuf]
        exact Or.inl ⟨_, Or.inr rfl, rfl,
          fun a' b' h => absurd h (by simp)⟩
  | some a =>
    cases b? with
    | none =>
      by_cases hsuf : (['\n']).isSuffixOf
          (joinLines ((splitLines (normEol d)).map processLine)) = true
      · rw [if_pos hsuf]
        exact Or.inl ⟨_, Or.inl rfl, rfl,
          fun a' b' h => absurd h (by simp)⟩
      · rw [if_neg hsuf]
        exact Or.inl ⟨_, Or.inr rfl, rfl,
          fun a' b' h => absurd h (by simp)⟩
    | some b =>
      simp only []
      by_cases hcond : a ≠ [] ∧ b ≠ []
        ∧ ¬ ((("diff --git ").toList).isPrefixOf
            (pyLStrip (joinLines ((splitLines (normEol d)).map processLine))) = true)
      · rw [if_pos hcond]
        by_cases hsuf : (['\n']).isSuffixOf
            (dgLine a b ++ '\n' :: joinLines ((splitLines (normEol d)).map processLine))
              = true
        · rw [if_pos hsuf]
          exact Or.inr ⟨a, b, _, rfl, Or.inl rfl, rfl⟩
        · rw [if_neg hsuf]
          refine Or.inr ⟨a, b, _, rfl, Or.inr rfl, ?_⟩
          rw [List.append_assoc]
          rfl
      · rw [if_neg hcond]
        by_cases hsuf : (['\n']).isSuffixOf
            (joinLines ((splitLines (normEol d)).map processLine)) = true
        · rw [if_pos hsuf]
          refine Or.inl ⟨_, Or.inl rfl, rfl, fun a' b' h => ?_⟩
          rw [Prod.mk.injEq, Option.some.injEq, Option.some.injEq] at h
          rw [← h.1, ← h.2]
          by_cases ha : a = []
          · exact Or.inl ha
          · by_cases hb : b = []
            · exact Or.inr (Or.inl hb)
            · refine Or.inr (Or.inr ?_)
              by_contra hpfx
              exact hcond ⟨ha, hb, hpfx⟩
        · rw [if_neg hsuf]
          refine Or.inl ⟨_, Or.inr rfl, rfl, fun a' b' h => ?_⟩
          rw [Prod.mk.injEq, Option.some.injEq, Option.some.injEq] at h
          rw [← h.1, ← h.2]
          by_cases ha : a = []
          · exact Or.inl ha
          · by_cases hb : b = []
            · exact Or.inr (Or.inl hb)
            · refine Or.inr (Or.inr ?_)
              by_contra hpfx
              exact hcond ⟨ha, hb, hpfx⟩

/-- Claim C3: `normalize_unified_diff` is idempotent — normalizing an
already-normalized diff returns it unchanged, for every input string. -/
theorem c3_normalize_idempotent (d : List Char) :
    normalize_unified_diff (normalize_unified_diff d) = normalize_unified_diff d := by
  have hend : (['\n']).isSuffixOf (normalize_unified_diff d) = true := by
    obtain ⟨r, hr⟩ : ∃ r, normalize_unified_diff d = r ++ ['\n'] := by
      rw [normalize_unified_diff]
      exact step5_ends_nl _
    rw [hr]
    exact List.isSuffixOf_iff_suffix.2 ⟨r, rfl⟩
  have hnoNL1 : ∀ l ∈ (splitLines (normEol d)).map processLine, '\n' ∉ l := by
    intro l' hl'
    rcases List.mem_map.1 hl' with ⟨l, hl, rfl⟩
    exact processLine_noNL (noNL_splitLines l hl)
  have hnoCR1 : ∀ l ∈ (splitLines (normEol d)).map processLine, '\r' ∉ l := by
    intro l' hl'
    rcases List.mem_map.1 hl' with ⟨l, hl, rfl⟩
    exact processLine_noCR (fun hm => noCR_normEol d (mem_of_mem_splitLines hm hl))
  have houtne : (splitLines (normEol d)).map processLine ≠ [] := by
    intro hq
    rw [List.map_eq_nil] at hq
    exact splitLines_ne_nil _ hq
  have hfix1 : ∀ l ∈ (splitLines (normEol d)).map processLine, processLine l = l := by
    intro l' hl'
    rcases List.mem_map.1 hl' with ⟨l, hl, rfl⟩
    exact processLine_idem l
  have hsplit_n1 : splitLines (joinLines ((splitLines (normEol d)).map processLine)) =
      (splitLines (normEol d)).map processLine := split_join _ houtne hnoNL1
  have hnoCR_n1 : '\r' ∉ joinLines ((splitLines (normEol d)).map processLine) := by
    intro hm
    rcases joinLines_chars hm with h | ⟨l, hl, hcl⟩
    · exact absurd h (by decide)
    · exact hnoCR1 l hl hcl
  have hchar : ∀ (t : Bool) (x : List Char) (l : List Char), l ∈ splitLines (normEol d) →
      headerParse l = some (t, x) → '\n' ∉ x ∧ '\r' ∉ x := by
    intro t x l hl hh
    have hx := headerParse_some hh
    constructor
    · intro hm
      rw [hx] at hm
      rcases canonPath_chars hm with ⟨e, he, hec⟩ | hc
      · have he' : e = '\n' := by
          rw [slashOf] at hec
          by_cases hb' : e = '\\'
          · rw [if_pos hb'] at hec
            exact absurd hec (by decide)
          · rw [if_neg hb'] at hec
            exact hec
        exact noNL_splitLines l hl (he' ▸ List.drop_subset 3 l he)
      · rcases hc with hc | hc | hc <;> exact absurd hc (by decide)
    · intro hm
      rw [hx] at hm
      rcases canonPath_chars hm with ⟨e, he, hec⟩ | hc
      · have he' : e = '\r' := by
          rw [slashOf] at hec
          by_cases hb' : e = '\\'
          · rw [if_pos hb'] at hec
            exact absurd hec (by decide)
          · rw [if_neg hb'] at hec
            exact hec
        exact noCR_normEol d (mem_of_mem_splitLines (he' ▸ List.drop_subset 3 l he) hl)
      · rcases hc with hc | hc | hc <;> exact absurd hc (by decide)
  rcases normalize_shape d with ⟨X, hXor, hval, hcond⟩ | ⟨a, b, Y, hab, hYor, hval⟩
  · apply normalize_fixed
    · rw [hval]
      apply normEol_eq_self
      rcases hXor with rfl | rfl
      · exact hnoCR_n1
      · intro hm
        rw [List.mem_append] at hm
        rcases hm with hm | hm
        · exact hnoCR_n1 hm
        · exact absurd hm (by decide)
    · rw [hval]
      rcases hXor with rfl | rfl
      · rw [hsplit_n1]
        exact map_eq_self_of hfix1
      · rw [show joinLines ((splitLines (normEol d)).map processLine) ++ ['\n'] =
          joinLines ((splitLines (normEol d)).map processLine) ++ '\n' :: ([] : List Char)
          from rfl]
        rw [splitLines_append, hsplit_n1]
        rw [show splitLines ([] : List Char) = [[]] from rfl]
        rw [List.map_append, map_eq_self_of hfix1]
        rw [show ([[]] : List (List Char)).map processLine = [[]] from by
          rw [List.map_cons, List.map_nil, processLine_of_none headerParse_nil]]
    · intro a b hab2
      rw [hval] at hab2 ⊢
      have hcp : collectPaths (splitLines X) =
          collectPaths (splitLines (normEol d)) := by
        rcases hXor with rfl | rfl
        · rw [hsplit_n1, collectPaths, collectPaths, foldl_stepPaths_map]
        · rw [show joinLines ((splitLines (normEol d)).map processLine) ++ ['\n'] =
            joinLines ((splitLines (normEol d)).map processLine) ++ '\n' :: ([] : List Char)
            from rfl]
          rw [splitLines_append, hsplit_n1]
          rw [show splitLines ([] : List Char) = [[]] from rfl]
          rw [collectPaths, collectPaths, List.foldl_append]
          rw [foldl_stepPaths_neutral (by
            intro l hl
            rw [List.mem_singleton] at hl
            rw [hl]
            exact headerParse_nil)]
          rw [foldl_stepPaths_map]
      rw [hcp] at hab2
      rcases hcond a b hab2 with hc | hc | hc
      · exact Or.inl hc
      · exact Or.inr (Or.inl hc)
      · refine Or.inr (Or.inr ?_)
        rcases hXor with rfl | rfl
        · exact hc
        · exact pyLStrip_prefix_append _ hc
    · exact hend
  · obtain ⟨la, hla, hha⟩ : ∃ l ∈ splitLines (normEol d),
        headerParse l = some (true, a) := by
      have hfst : ((splitLines (normEol d)).foldl stepPaths (none, none)).1 = some a := by
        rw [← collectPaths, hab]
      rcases (foldl_stepPaths_src (splitLines (normEol d)) (none, none)).1 a hfst with h' | h'
      · exact absurd h' (by simp)
      · exact h'
    obtain ⟨lb, hlb, hhb⟩ : ∃ l ∈ splitLines (normEol d),
        headerParse l = some (false, b) := by
      have hsnd : ((splitLines (normEol d)).foldl stepPaths (none, none)).2 = some b := by
        rw [← collectPaths, hab]
      rcases (foldl_stepPaths_src (splitLines (normEol d)) (none, none)).2 b hsnd with h' | h'
      · exact absurd h' (by simp)
      · exact h'
    obtain ⟨hNLa, hCRa⟩ := hchar true a la hla hha
    obtain ⟨hNLb, hCRb⟩ := hchar false b lb hlb hhb
    have hNLdg : '\n' ∉ dgLine a b := by
      intro hm
      rw [dgLine, List.mem_append, List.mem_append, List.mem_cons] at hm
      rcases hm with (hm | hm) | hm | hm
      · exact absurd hm (by decide)
      · exact hNLa hm
      · exact absurd hm (by decide)
      · exact hNLb hm
    have hCRdg : '\r' ∉ dgLine a b := by
      intro hm
      rw [dgLine, List.mem_append, List.mem_append, List.mem_cons] at hm
      rcases hm with (hm | hm) | hm | hm
      · exact absurd hm (by decide)
      · exact hCRa hm
      · exact absurd hm (by decide)
      · exact hCRb hm
    apply normalize_fixed
    · rw [hval]
      apply normEol_eq_self
      intro hm
      rw [List.mem_append, List.mem_cons] at hm
      rcases hm with hm | hm | hm
      · exact hCRdg hm
      · exact absurd hm (by decide)
      · rcases hYor with rfl | rfl
        · exact hnoCR_n1 hm
        · rw [List.mem_append] at hm
          rcases hm with hm | hm
          · exact hnoCR_n1 hm
          · exact absurd hm (by decide)
    · rw [hval]
      rw [splitLines_append, splitLines_of_noNL hNLdg]
      rcases hYor with rfl | rfl
      · rw [hsplit_n1]
        rw [List.singleton_append, List.map_cons,
          processLine_of_none (headerParse_dgLine a b), map_eq_self_of hfix1]
      · rw [show joinLines ((splitLines (normEol d)).map processLine) ++ ['\n'] =
          joinLines ((splitLines (normEol d)).map processLine) ++ '\n' :: ([] : List Char)
          from rfl]
        rw [splitLines_append, hsplit_n1]
        rw [show splitLines ([] : List Char) = [[]] from rfl]
        rw [List.singleton_append, List.map_cons,
          processLine_of_none (headerParse_dgLine a b)]
        rw [List.map_append, map_eq_self_of hfix1]
        rw [show ([[]] : List (List Char)).map processLine = [[]] from by
          rw [List.map_cons, List.map_nil, processLine_of_none headerParse_nil]]
    · intro a' b' _
      refine Or.inr (Or.inr ?_)
      rw [hval]
      rw [show dgLine a b ++ '\n' :: Y =
        'd' :: (("iff --git ").toList ++ a ++ ' ' :: b ++ '\n' :: Y) from by
          rw [dgLine]
          simp]
      rw [pyLStrip, List.dropWhile_cons_of_neg (by decide)]
      refine isPrefixOf_true_iff.2 ⟨a ++ ' ' :: b ++ '\n' :: Y, ?_⟩
      rw [show ("diff --git ").toList ++ (a ++ ' ' :: b ++ '\n' :: Y) =
        'd' :: (("iff --git ").toList ++ (a ++ ' ' :: b ++ '\n' :: Y)) from rfl]
      simp [List.append_assoc]
    · exact hend

end RepoDoctor
